import Mathlib

/-!
Verification of the Store-Information repository.

The development shallowly embeds the TypeScript sources:
  * `src/utils/config.ts` (`getOpenAIConfig`, `validateStoreName`),
  * `src/services/openai.service.ts` (`OpenAIService.getStoreInformation`,
    the two-stage completion strategy and the web-search response cleanup),
  * `src/services/store-info.service.ts` (`StoreInfoService.getStoreInfo`).

Strings are modelled as lists of characters (`String.data`).  The JavaScript
regular-expression replacements of the cleanup chain are translated as
left-to-right scanners; each scanner that recurses on a non-structural
suffix is written with an explicit fuel argument (the fuel is instantiated
with the length of the input, which always suffices), keeping every
definition kernel-computable.

The remote OpenAI capability is modelled as an oracle: the primary
chat-completions call yields `Except JsError (Option String)` (the
`choices[0]?.message?.content` value, or a thrown error) and the secondary
responses-API call yields `Except JsError ResponseData`.
-/

namespace StoreInfo

/-- Decidable equality of `Except` values, used to evaluate the model on
concrete inputs. -/
instance exceptDecEq {ε α : Type} [DecidableEq ε] [DecidableEq α] :
    DecidableEq (Except ε α) := fun a b =>
  match a, b with
  | Except.error e, Except.error f =>
    if h : e = f then isTrue (congrArg Except.error h)
    else isFalse (fun hh => h (Except.error.inj hh))
  | Except.ok x, Except.ok y =>
    if h : x = y then isTrue (congrArg Except.ok h)
    else isFalse (fun hh => h (Except.ok.inj hh))
  | Except.error _, Except.ok _ => isFalse (fun hh => Except.noConfusion hh)
  | Except.ok _, Except.error _ => isFalse (fun hh => Except.noConfusion hh)

/-! ## Character classes (JavaScript `\s`, the bullet class `[•·-]`) -/

/-- The JavaScript whitespace class `\s` (also the set trimmed by
`String.prototype.trim`): space, tab, LF, VT, FF, CR, NBSP and the
Unicode space separators. -/
def isJsWs (c : Char) : Bool :=
  c.toNat = 32 || (9 ≤ c.toNat && c.toNat ≤ 13) || c.toNat = 0xa0 ||
  c.toNat = 0x1680 || (0x2000 ≤ c.toNat && c.toNat ≤ 0x200a) ||
  c.toNat = 0x2028 || c.toNat = 0x2029 || c.toNat = 0x202f ||
  c.toNat = 0x205f || c.toNat = 0x3000 || c.toNat = 0xfeff

/-- The character class `[•·-]` of the bullet-removal replacement. -/
def isBullet (c : Char) : Bool :=
  c = '•' || c = '·' || c = '-'

/-! ## JavaScript `trim` -/

/-- Drop trailing JavaScript whitespace from a character list. -/
def jsDropTrailing : List Char → List Char
  | [] => []
  | c :: rest =>
    let r := jsDropTrailing rest
    if r = [] && isJsWs c then [] else c :: r

/-- `String.prototype.trim` on character lists: drop leading and trailing
JavaScript whitespace. -/
def jsTrimL (l : List Char) : List Char :=
  jsDropTrailing (l.dropWhile isJsWs)

/-- `String.prototype.trim`. -/
def jsTrim (s : String) : String :=
  String.mk (jsTrimL s.data)

/-! ## The cleanup chain of `OpenAIService.getStoreInformation`

The web-search response is cleaned by (in order):
1. `.replace(/\(\[([^\]]+)\]\([^)]+\)\)/g, )` - parenthesised markdown links,
2. `.replace(/\[[^\]]+\]\([^)]+\)/g, )` - plain markdown links,
3. `.replace(/\([^)]*\)/g, )` - all parenthetical content,
4. `.replace(/\n\n+/g, one space)` - multiple line breaks,
5. `.replace(/\n/g, one space)` - single line breaks,
6. `.replace(/\s*[•·-]\s*/g, one space)` - bullet points,
7. `.replace(/\s+/g, one space)` - whitespace runs,
8. `.replace(/\s+\./g, dot)` - space before periods,
9. `.replace(/\s+,/g, comma)` - space before commas,
10. `.trim()`.
-/

/-- Split a list at the first occurrence of `ch`: the part before it and
the part after it. -/
def splitFirst (ch : Char) : List Char → Option (List Char × List Char)
  | [] => none
  | c :: rest =>
    if c = ch then some ([], rest)
    else
      match splitFirst ch rest with
      | some (b, a) => some (c :: b, a)
      | none => none

/-- Drop everything up to and including the first `)` of the list;
`none` when the list has no `)` (the regex `\([^)]*\)` then fails). -/
def splitAtClose : List Char → Option (List Char)
  | [] => none
  | c :: rest => if c = ')' then some rest else splitAtClose rest

/-- Match `\[([^\]]+)\]\([^)]+\)\)` against the characters that follow an
opening `(` (regex 1, parenthesised markdown link); returns the remainder
after the match. -/
def matchLink1 (l : List Char) : Option (List Char) :=
  match l with
  | c0 :: rest1 =>
    if c0 = '[' then
      match splitFirst ']' rest1 with
      | some (txt, rest2) =>
        if txt.isEmpty then none
        else
          match rest2 with
          | c1 :: rest3 =>
            if c1 = '(' then
              match splitFirst ')' rest3 with
              | some (url, rest4) =>
                if url.isEmpty then none
                else
                  match rest4 with
                  | c2 :: rest5 => if c2 = ')' then some rest5 else none
                  | [] => none
              | none => none
            else none
          | [] => none
      | none => none
    else none
  | [] => none

/-- Match `[^\]]+\]\([^)]+\)` against the characters that follow an
opening `[` (regex 2, plain markdown link); returns the remainder after
the match. -/
def matchLink2 (l : List Char) : Option (List Char) :=
  match splitFirst ']' l with
  | some (txt, rest1) =>
    if txt.isEmpty then none
    else
      match rest1 with
      | c1 :: rest2 =>
        if c1 = '(' then
          match splitFirst ')' rest2 with
          | some (url, rest3) => if url.isEmpty then none else some rest3
          | none => none
        else none
      | [] => none
  | none => none

/-- Scanner for `.replace(/\(\[([^\]]+)\]\([^)]+\)\)/g, )`. -/
def removeLink1F : Nat → List Char → List Char
  | 0, l => l
  | _ + 1, [] => []
  | fuel + 1, c :: rest =>
    if c = '(' then
      match matchLink1 rest with
      | some rest2 => removeLink1F fuel rest2
      | none => c :: removeLink1F fuel rest
    else c :: removeLink1F fuel rest

/-- Scanner for `.replace(/\[[^\]]+\]\([^)]+\)/g, )`. -/
def removeLink2F : Nat → List Char → List Char
  | 0, l => l
  | _ + 1, [] => []
  | fuel + 1, c :: rest =>
    if c = '[' then
      match matchLink2 rest with
      | some rest2 => removeLink2F fuel rest2
      | none => c :: removeLink2F fuel rest
    else c :: removeLink2F fuel rest

/-- Scanner for `.replace(/\([^)]*\)/g, )`. -/
def removeParensF : Nat → List Char → List Char
  | 0, l => l
  | _ + 1, [] => []
  | fuel + 1, c :: rest =>
    if c = '(' then
      match splitAtClose rest with
      | some rest2 => removeParensF fuel rest2
      | none => c :: removeParensF fuel rest
    else c :: removeParensF fuel rest

/-- Scanner for `.replace(/\n\n+/g, one space)`: a run of two or more
line breaks becomes a single space; a lone line break is kept. -/
def collapseNLF : Nat → List Char → List Char
  | 0, l => l
  | _ + 1, [] => []
  | fuel + 1, c :: rest =>
    if c = '\n' then
      match rest with
      | d :: rest2 =>
        if d = '\n' then
          ' ' :: collapseNLF fuel (rest2.dropWhile (fun x => x = '\n'))
        else c :: collapseNLF fuel rest
      | [] => [c]
    else c :: collapseNLF fuel rest

/-- `.replace(/\n/g, one space)`. -/
def mapNewlines (l : List Char) : List Char :=
  l.map (fun c => if c = '\n' then ' ' else c)

/-- Scanner for `.replace(/\s*[•·-]\s*/g, one space)`: a bullet character
together with the whitespace around it becomes a single space. -/
def removeBulletsF : Nat → List Char → List Char
  | 0, l => l
  | _ + 1, [] => []
  | fuel + 1, c :: rest =>
    if isBullet c then ' ' :: removeBulletsF fuel (rest.dropWhile isJsWs)
    else if isJsWs c then
      match rest.dropWhile isJsWs with
      | b :: rest2 =>
        if isBullet b then ' ' :: removeBulletsF fuel (rest2.dropWhile isJsWs)
        else (c :: rest.takeWhile isJsWs) ++ removeBulletsF fuel (b :: rest2)
      | [] => c :: rest.takeWhile isJsWs
    else c :: removeBulletsF fuel rest

/-- Scanner for `.replace(/\s+/g, one space)`: a maximal whitespace run
becomes a single space. -/
def collapseWs : List Char → List Char
  | [] => []
  | c :: rest =>
    if isJsWs c then
      match rest with
      | d :: _ => if isJsWs d then collapseWs rest else ' ' :: collapseWs rest
      | [] => [' ']
    else c :: collapseWs rest

/-- Scanner for `.replace(/\s+p/g, p)` where `p` is a punctuation
character (`.` for regex 8, `,` for regex 9): a whitespace run followed by
`p` becomes `p`. -/
def fixSpaceBeforeF (p : Char) : Nat → List Char → List Char
  | 0, l => l
  | _ + 1, [] => []
  | fuel + 1, c :: rest =>
    if isJsWs c then
      match rest.dropWhile isJsWs with
      | b :: rest2 =>
        if b = p then p :: fixSpaceBeforeF p fuel rest2
        else (c :: rest.takeWhile isJsWs) ++ fixSpaceBeforeF p fuel (b :: rest2)
      | [] => c :: rest.takeWhile isJsWs
    else c :: fixSpaceBeforeF p fuel rest

/-- Replacement 1 (`/\(\[([^\]]+)\]\([^)]+\)\)/g`), fuel instantiated. -/
def removeLink1 (l : List Char) : List Char :=
  removeLink1F l.length l

/-- Replacement 2 (`/\[[^\]]+\]\([^)]+\)/g`), fuel instantiated. -/
def removeLink2 (l : List Char) : List Char :=
  removeLink2F l.length l

/-- Replacement 3 (`/\([^)]*\)/g`), fuel instantiated. -/
def removeParens (l : List Char) : List Char :=
  removeParensF l.length l

/-- Replacement 4 (`/\n\n+/g`), fuel instantiated. -/
def collapseNL (l : List Char) : List Char :=
  collapseNLF l.length l

/-- Replacement 6 (`/\s*[•·-]\s*/g`), fuel instantiated. -/
def removeBullets (l : List Char) : List Char :=
  removeBulletsF l.length l

/-- Replacements 8 and 9 (`/\s+\./g`, `/\s+,/g`), fuel instantiated. -/
def fixSpaceBefore (p : Char) (l : List Char) : List Char :=
  fixSpaceBeforeF p l.length l

/-- The full cleanup chain applied to the raw web-search response
(lines 94-104 of `openai.service.ts`), on character lists. -/
def cleanL (l : List Char) : List Char :=
  jsTrimL (fixSpaceBefore ',' (fixSpaceBefore '.' (collapseWs
    (removeBullets (mapNewlines (collapseNL (removeParens
      (removeLink2 (removeLink1 l)))))))))

/-- The full cleanup chain on strings. -/
def cleanResponse (s : String) : String :=
  String.mk (cleanL s.data)

/-! ### Normal forms of cleaned text

The predicates below characterise the output of the cleanup chain; they
are used to prove that the chain is idempotent. -/

/-- The parenthesis characters. -/
def isParen (c : Char) : Bool :=
  c = '(' || c = ')'

/-- The parenthesis characters of a list, in order. -/
def filterParens (l : List Char) : List Char :=
  l.filter isParen

/-- No `(` is followed (anywhere later) by a `)` — hence none of the
three parenthesis-based replacements can match. -/
def noParenPairL : List Char → Prop
  | [] => True
  | c :: rest => if c = '(' then ')' ∉ rest else noParenPairL rest

/-- Every whitespace character of the list is a plain space. -/
def allWsSpace (l : List Char) : Prop :=
  ∀ c ∈ l, isJsWs c = true → c = ' '

/-- The list contains no bullet character. -/
def noBullets (l : List Char) : Prop :=
  ∀ c ∈ l, isBullet c = false

/-- No two adjacent whitespace characters. -/
def noAdjWs : List Char → Prop
  | a :: b :: rest =>
    (isJsWs a = false ∨ isJsWs b = false) ∧ noAdjWs (b :: rest)
  | _ => True

/-- No whitespace character immediately followed by `p`. -/
def noWsBefore (p : Char) : List Char → Prop
  | a :: b :: rest =>
    (isJsWs a = false ∨ b ≠ p) ∧ noWsBefore p (b :: rest)
  | _ => True

/-- The first character, if any, is not whitespace. -/
def headOk : List Char → Prop
  | [] => True
  | c :: _ => isJsWs c = false

/-- The last character, if any, is not whitespace. -/
def lastOk : List Char → Prop
  | [] => True
  | [c] => isJsWs c = false
  | _ :: c :: rest => lastOk (c :: rest)

/-- Normal form of cleaned text: no parenthesis pair, no bullets, only
plain single spaces as whitespace, no space before `.` or `,`, and
trimmed at both ends.  Every replacement of the cleanup chain is the
identity on such lists. -/
def cleanNormal (l : List Char) : Prop :=
  noParenPairL l ∧ noBullets l ∧ allWsSpace l ∧ noAdjWs l ∧
    noWsBefore '.' l ∧ noWsBefore ',' l ∧ headOk l ∧ lastOk l

/-! ## Data model (`src/types/index.ts`) -/

/-- `ErrorType` of `src/types/index.ts`. -/
inductive ErrorType where
  | API_ERROR
  | INVALID_INPUT
  | NETWORK_ERROR
  | CONFIGURATION_ERROR
deriving DecidableEq, Repr

/-- An error thrown by the OpenAI client: either an `OpenAI.APIError`
(application-level, carrying an optional HTTP status and provider error
code) or any other thrown value (transport-level). -/
inductive JsError where
  | apiError (status : Option Nat) (code : Option String) (message : String)
  | otherError (message : String)
deriving DecidableEq, Repr

/-- The `details` payload of a `StoreInfoError`: either the
`{ status, code }` object attached to an `API_ERROR`, or the underlying
cause attached to a `NETWORK_ERROR`. -/
inductive ErrorDetails where
  | statusCode (status : Option Nat) (code : Option String)
  | cause (e : JsError)
deriving DecidableEq, Repr

/-- `StoreInfoError` of `src/types/index.ts`. -/
structure StoreInfoError where
  type : ErrorType
  message : String
  details : Option ErrorDetails
deriving DecidableEq, Repr

/-- `StoreInfoResponse` of `src/types/index.ts`. -/
structure StoreInfoResponse where
  storeName : String
  information : String
deriving DecidableEq, Repr

/-- `OpenAIConfig` of `src/types/index.ts`, after the defaulting performed
by `getOpenAIConfig` (`timeout = none` models a `NaN` produced by
`parseInt`). -/
structure OpenAIConfig where
  apiKey : String
  model : String
  timeout : Option Int
deriving DecidableEq, Repr

/-- The environment variables read by `getOpenAIConfig`
(`none` models an unset variable). -/
structure Env where
  OPENAI_API_KEY : Option String
  OPENAI_MODEL : Option String
  API_TIMEOUT : Option String
deriving DecidableEq, Repr

/-! ## The secondary (responses-API) result shape -/

/-- One entry of a message item `content` array
(`text = none` models a missing `text` field). -/
structure ContentEntry where
  type : String
  text : Option String
deriving DecidableEq, Repr

/-- One item of an array-shaped responses-API result
(a missing `content` field is modelled by the empty list). -/
structure RespItem where
  type : String
  content : List ContentEntry
deriving DecidableEq, Repr

/-- The value produced by the responses-API call: a plain string, a
non-array object (with an optional `output_text` field), or an array
(with an optional `output_text` property and its items). -/
inductive ResponseData where
  | str (s : String)
  | obj (outputText : Option String)
  | arr (outputText : Option String) (items : List RespItem)
deriving DecidableEq, Repr

/-- The predicate of the `find` call on an array-shaped result:
`item.type === 'message' && item.content?.[0]?.type === 'output_text'`. -/
def isOutputTextMessage (item : RespItem) : Bool :=
  item.type = "message" &&
    match item.content.head? with
    | some c => c.type = "output_text"
    | none => false

/-- Text extraction from an array-shaped result (lines 81-89 of
`openai.service.ts`): the `text` of the first content entry of the first
matching message item, when that text is truthy; otherwise the empty
string. -/
def extractFromItems (items : List RespItem) : String :=
  match items.find? isOutputTextMessage with
  | some item =>
    match item.content.head? with
    | some c =>
      match c.text with
      | some t => if t = "" then "" else t
      | none => ""
    | none => ""
  | none => ""

/-- Text extraction from the responses-API value (lines 73-89 of
`openai.service.ts`): a string is used directly; otherwise a truthy
`output_text` field is used; otherwise an array is searched for a message
item; otherwise the text stays empty. -/
def extractText : ResponseData → String
  | ResponseData.str s => s
  | ResponseData.obj o =>
    match o with
    | some t => if t = "" then "" else t
    | none => ""
  | ResponseData.arr o items =>
    match o with
    | some t => if t = "" then extractFromItems items else t
    | none => extractFromItems items

/-! ### The spec-side decode of the secondary result

The specification (§9) reframes the shape-sniffing of the secondary
call's output as a tagged-union decode with a documented precedence
order.  The following definitions follow the spec's words and are
compared with `extractText` (which is translated from the code). -/

/-- JavaScript truthiness of an optional string field. -/
def truthyStr : Option String → Bool
  | some t => !(t = "")
  | none => false

/-- The `output_text` field of the response value, when it has one. -/
def outputTextField : ResponseData → Option String
  | ResponseData.str _ => none
  | ResponseData.obj o => o
  | ResponseData.arr o _ => o

/-- The response value viewed as a plain string. -/
def asString : ResponseData → Option String
  | ResponseData.str s => some s
  | _ => none

/-- The response value viewed as a list of structured items. -/
def asItems : ResponseData → Option (List RespItem)
  | ResponseData.arr _ items => some items
  | _ => none

/-- Modelled from the spec: the list search of the decode step — the
`text` of the first content entry of the first item of type `message`
whose first content entry has type `output_text`. -/
def specSearchMessage (items : List RespItem) : Option String :=
  match items.find? (fun it =>
      it.type = "message" &&
        match it.content.head? with
        | some c => c.type = "output_text"
        | none => false) with
  | some it =>
    match it.content.head? with
    | some c => c.text
    | none => none
  | none => none

/-- Modelled from the spec: the decode step of §9 — a small tagged-union
decode with three explicit variants and the documented precedence order
(string, then truthy `output_text` field, then list search for a message
item), defaulting to empty text if none match. -/
def specDecodeSecondary (d : ResponseData) : String :=
  match asString d with
  | some s => s
  | none =>
    if truthyStr (outputTextField d) then (outputTextField d).getD ""
    else
      match asItems d with
      | some items =>
        match specSearchMessage items with
        | some t => if truthyStr (some t) then t else ""
        | none => ""
      | none => ""

/-! ## The service (`openai.service.ts`, first draft, lines 34-155) -/

/-- An apostrophe. -/
def apos : Char := Char.ofNat 39

/-- The fixed fallback sentence returned when both calls are
inconclusive. -/
def fallbackMessage : String :=
  "We" ++ apos.toString ++
    "re unable to single-out detailed context about this store."

/-- The `catch` block of `getStoreInformation` (lines 138-154): an
`OpenAI.APIError` is wrapped as an `API_ERROR` carrying the provider
status and code, any other error as a `NETWORK_ERROR` carrying the cause. -/
def handleCatch (e : JsError) : StoreInfoError :=
  match e with
  | JsError.apiError st cd msg =>
    { type := ErrorType.API_ERROR
      message := "OpenAI API error: " ++ msg
      details := some (ErrorDetails.statusCode st cd) }
  | JsError.otherError _ =>
    { type := ErrorType.NETWORK_ERROR
      message := "Failed to get store information"
      details := some (ErrorDetails.cause e) }

/-- Whether the fallback web search is attempted (the guard of line 60):
the trimmed primary output is the sentinel `"0"` or empty. -/
def secondaryCalled (content : Option String) : Bool :=
  let t := jsTrim (content.getD "")
  t = "0" || t.length = 0

/-- The secondary sentinel check (lines 108-119): the cleaned web-search
text, or the sentinel `"0"` when that text is itself `"0"` or empty. -/
def cleanedOrSentinel (responseData : ResponseData) : String :=
  let cleanedResponse := cleanResponse (extractText responseData)
  if cleanedResponse = "0" ∨ cleanedResponse.length = 0 then "0"
  else cleanedResponse

/-- The text selected by lines 56-125 before the final substitution:
the raw primary output, replaced by the cleaned secondary output (or the
sentinel `"0"`) when the fallback is triggered; a secondary-call error is
swallowed and the primary output kept. -/
def selectedText (content : Option String)
    (secondaryResult : Except JsError ResponseData) : String :=
  let response := content.getD ""
  let trimmedInitialResponse := jsTrim response
  if trimmedInitialResponse = "0" ∨ trimmedInitialResponse.length = 0 then
    match secondaryResult with
    | Except.error _ => response
    | Except.ok responseData => cleanedOrSentinel responseData
  else response

/-- The final substitution (lines 127-132): trim the selected text and
replace an empty or sentinel result by the fixed fallback sentence. -/
def finalText (selected : String) : String :=
  let trimmedResponse := jsTrim selected
  if trimmedResponse.length = 0 ∨ trimmedResponse = "0" then fallbackMessage
  else trimmedResponse

/-- `OpenAIService.getStoreInformation` (lines 34-155), with the two
remote calls supplied as oracles: `primaryOutcome` is the
chat-completions result (`choices[0]?.message?.content`, or a thrown
error) and `secondaryResult` the responses-API result. -/
def getStoreInformation (storeName : String)
    (primaryOutcome : Except JsError (Option String))
    (secondaryResult : Except JsError ResponseData) :
    Except StoreInfoError StoreInfoResponse :=
  match primaryOutcome with
  | Except.error e => Except.error (handleCatch e)
  | Except.ok content =>
    Except.ok
      { storeName := storeName
        information := finalText (selectedText content secondaryResult) }

/-! ## Configuration and validation (`src/utils/config.ts`) -/

/-- JavaScript `parseInt(s, 10)`: skip leading whitespace, read an
optional sign and then decimal digits; `none` models `NaN`. -/
def jsParseInt (s : String) : Option Int :=
  let l := s.data.dropWhile isJsWs
  let signAndRest : Bool × List Char :=
    match l with
    | '-' :: r => (true, r)
    | '+' :: r => (false, r)
    | _ => (false, l)
  let ds := signAndRest.2.takeWhile (fun c => c.isDigit)
  if ds.isEmpty then none
  else
    let n := ds.foldl (fun acc c => acc * 10 + (c.toNat - 48)) (0 : Nat)
    some (if signAndRest.1 then -(n : Int) else (n : Int))

/-- `getOpenAIConfig` (lines 10-25 of `config.ts`): fail with a
`CONFIGURATION_ERROR` when the API key is unset or empty; default the
model to `"gpt-5-nano"` and the timeout to `30000` when the corresponding
variables are unset or empty. -/
def getOpenAIConfig (env : Env) : Except StoreInfoError OpenAIConfig :=
  let apiKey := env.OPENAI_API_KEY.getD ""
  if apiKey = "" then
    Except.error
      { type := ErrorType.CONFIGURATION_ERROR
        message := "OPENAI_API_KEY is not set in environment variables. Please create a .env file with your API key."
        details := none }
  else
    Except.ok
      { apiKey := apiKey
        model :=
          match env.OPENAI_MODEL with
          | some m => if m = "" then "gpt-5-nano" else m
          | none => "gpt-5-nano"
        timeout :=
          match env.API_TIMEOUT with
          | some t => if t = "" then some 30000 else jsParseInt t
          | none => some 30000 }

/-- `validateStoreName` (lines 30-47 of `config.ts`): reject an empty or
whitespace-only identifier, and an identifier whose raw length exceeds
200 characters; `none` means the identifier is accepted. -/
def validateStoreName (storeName : String) : Option StoreInfoError :=
  if storeName = "" ∨ (jsTrim storeName).length = 0 then
    some
      { type := ErrorType.INVALID_INPUT
        message := "Store URL cannot be empty"
        details := none }
  else if storeName.length > 200 then
    some
      { type := ErrorType.INVALID_INPUT
        message := "Store URL is too long (maximum 200 characters)"
        details := none }
  else none

/-- `StoreInfoService.getStoreInfo` (`store-info.service.ts`): validate,
trim, then delegate to `getStoreInformation` with the trimmed name. -/
def getStoreInfo (storeName : String)
    (primaryOutcome : Except JsError (Option String))
    (secondaryResult : Except JsError ResponseData) :
    Except StoreInfoError StoreInfoResponse :=
  match validateStoreName storeName with
  | some e => Except.error e
  | none =>
    let cleanedStoreName := jsTrim storeName
    getStoreInformation cleanedStoreName primaryOutcome secondaryResult

/-! ## Basic facts -/

/-- A string is empty exactly when its length is zero. -/
theorem string_length_eq_zero_iff (s : String) : s.length = 0 ↔ s = "" := by
  cases s with
  | mk d =>
    constructor
    · intro h
      have hd : d = [] := List.eq_nil_of_length_eq_zero h
      subst hd
      rfl
    · intro h
      rw [h]
      rfl

/-- The fallback sentence is neither empty nor the sentinel. -/
theorem fallback_ne : fallbackMessage ≠ "" ∧ fallbackMessage ≠ "0" := by
  constructor <;> decide

/-- The final substitution never yields the empty string or the
sentinel: it yields the fallback sentence or the trimmed selected text. -/
theorem finalText_ne (sel : String) :
    finalText sel ≠ "" ∧ finalText sel ≠ "0" ∧
      (finalText sel = fallbackMessage ∨ finalText sel = jsTrim sel) := by
  unfold finalText
  by_cases h : (jsTrim sel).length = 0 ∨ jsTrim sel = "0"
  · rw [if_pos h]
    exact ⟨fallback_ne.1, fallback_ne.2, Or.inl rfl⟩
  · rw [if_neg h]
    push_neg at h
    exact ⟨fun he => h.1 ((string_length_eq_zero_iff _).mpr he), h.2,
      Or.inr rfl⟩

/-! ## Claim theorems -/

/-- Claim C1: whenever `getStoreInformation` returns normally, the
`information` field is non-empty and is not the sentinel `"0"`; it is
either the fixed fallback sentence or the trimmed selected text. -/
theorem spec_c1 (n : String) (p : Except JsError (Option String))
    (sec : Except JsError ResponseData) (resp : StoreInfoResponse)
    (h : getStoreInformation n p sec = Except.ok resp) :
    resp.information ≠ "" ∧ resp.information ≠ "0" ∧
      (resp.information = fallbackMessage ∨
        ∃ content, p = Except.ok content ∧
          resp.information = jsTrim (selectedText content sec)) := by
  cases p with
  | error e => exact absurd h (by simp [getStoreInformation])
  | ok content =>
    have hr : resp = { storeName := n
                       information := finalText (selectedText content sec) } := by
      have := h.symm
      simpa [getStoreInformation] using this
    subst hr
    obtain ⟨h1, h2, h3⟩ := finalText_ne (selectedText content sec)
    refine ⟨h1, h2, ?_⟩
    rcases h3 with h3 | h3
    · exact Or.inl h3
    · exact Or.inr ⟨content, rfl, h3⟩

/-- Claim C1 witness. -/
theorem spec_c1_witness :
    fallbackMessage ≠ "" ∧ fallbackMessage ≠ "0" := by
  have h := spec_c1 "S" (Except.ok (some "0"))
    (Except.error (JsError.otherError "x"))
    { storeName := "S", information := fallbackMessage } (by decide)
  exact ⟨h.1, h.2.1⟩

set_option maxRecDepth 100000 in
/-- Claim C2 counterexample: an identifier of one non-blank character
followed by 200 spaces has trimmed length 1 (within the claimed
accepting range) yet is rejected with an `INVALID_INPUT` error, because
the code compares the raw length, not the trimmed length, with 200. -/
theorem spec_c2_counterexample :
    (1 ≤ (jsTrim (String.mk ('a' :: List.replicate 200 ' '))).length ∧
      (jsTrim (String.mk ('a' :: List.replicate 200 ' '))).length ≤ 200) ∧
    validateStoreName (String.mk ('a' :: List.replicate 200 ' ')) =
      some { type := ErrorType.INVALID_INPUT
             message := "Store URL is too long (maximum 200 characters)"
             details := none } := by
  decide

/-- Claim C2 (amended): validation rejects with `INVALID_INPUT` exactly
when the trimmed identifier is empty or the raw identifier is longer
than 200 characters, and `INVALID_INPUT` is the only error type it
produces. -/
theorem spec_c2 (s : String) :
    ((validateStoreName s).isSome ↔
      ((jsTrim s).length = 0 ∨ 200 < s.length)) ∧
    (∀ e, validateStoreName s = some e → e.type = ErrorType.INVALID_INPUT) := by
  unfold validateStoreName
  by_cases h1 : s = "" ∨ (jsTrim s).length = 0
  · simp only [if_pos h1, Option.isSome_some, true_iff]
    constructor
    · left
      rcases h1 with h1 | h1
      · rw [h1]; rfl
      · exact h1
    · intro e he
      cases he
      rfl
  · simp only [if_neg h1]
    push_neg at h1
    by_cases h2 : 200 < s.length
    · simp only [if_pos h2, Option.isSome_some, true_iff]
      exact ⟨Or.inr h2, fun e he => by cases he; rfl⟩
    · simp only [if_neg h2]
      constructor
      · simp only [Option.isSome_none, Bool.false_eq_true, false_iff]
        push_neg
        exact ⟨h1.2, le_of_not_lt h2⟩
      · intro e he
        cases he

/-- Claim C2 witness: the empty identifier is rejected with
`INVALID_INPUT`. -/
theorem spec_c2_witness :
    (validateStoreName "").isSome ∧
      ∃ e, validateStoreName "" = some e ∧
        e.type = ErrorType.INVALID_INPUT := by
  have h := spec_c2 ""
  refine ⟨h.1.mpr (Or.inl (by decide)), ?_⟩
  refine ⟨{ type := ErrorType.INVALID_INPUT
            message := "Store URL cannot be empty"
            details := none }, by decide, ?_⟩
  exact h.2 _ (by decide)

/-- Claim C3: when the trimmed primary output is neither empty nor the
sentinel, the fallback guard is false, the result does not depend on the
secondary oracle, and the information equals the trimmed primary output
unchanged (no normalization is applied). -/
theorem spec_c3 (n : String) (content : Option String)
    (sec : Except JsError ResponseData)
    (h1 : jsTrim (content.getD "") ≠ "0")
    (h2 : jsTrim (content.getD "") ≠ "") :
    secondaryCalled content = false ∧
      getStoreInformation n (Except.ok content) sec =
        Except.ok { storeName := n
                    information := jsTrim (content.getD "") } := by
  have hlen : ¬(jsTrim (content.getD "")).length = 0 := by
    intro h
    exact h2 ((string_length_eq_zero_iff _).mp h)
  have hguard : ¬(jsTrim (content.getD "") = "0" ∨
      (jsTrim (content.getD "")).length = 0) := by
    push_neg
    exact ⟨h1, hlen⟩
  have hsel : selectedText content sec = content.getD "" := by
    unfold selectedText
    simp only [if_neg hguard]
  have hcond : ¬((jsTrim (content.getD "")).length = 0 ∨
      jsTrim (content.getD "") = "0") := by
    push_neg
    exact ⟨hlen, h1⟩
  constructor
  · simp only [secondaryCalled, Bool.or_eq_false_iff, decide_eq_false_iff_not]
    exact ⟨h1, hlen⟩
  · simp only [getStoreInformation, hsel, finalText]
    rw [if_neg hcond]

/-- Claim C3 witness. -/
theorem spec_c3_witness :
    secondaryCalled (some "Nice store.") = false ∧
      getStoreInformation "S" (Except.ok (some "Nice store."))
          (Except.ok (ResponseData.str "ignored")) =
        Except.ok { storeName := "S", information := "Nice store." } := by
  have h := spec_c3 "S" (some "Nice store.")
    (Except.ok (ResponseData.str "ignored")) (by decide) (by decide)
  exact ⟨h.1, by rw [h.2]; decide⟩

/-- Claim C4: when the trimmed primary output is the sentinel or empty
and the secondary call throws, the operation still returns normally with
the fixed fallback sentence. -/
theorem spec_c4 (n : String) (content : Option String) (e : JsError)
    (h : jsTrim (content.getD "") = "0" ∨ jsTrim (content.getD "") = "") :
    getStoreInformation n (Except.ok content) (Except.error e) =
      Except.ok { storeName := n, information := fallbackMessage } := by
  have hguard : jsTrim (content.getD "") = "0" ∨
      (jsTrim (content.getD "")).length = 0 := by
    rcases h with h | h
    · exact Or.inl h
    · exact Or.inr ((string_length_eq_zero_iff _).mpr h)
  have hsel : selectedText content (Except.error e) = content.getD "" := by
    unfold selectedText
    simp only [if_pos hguard]
  simp only [getStoreInformation, hsel, finalText]
  rcases h with h | h <;> simp [h]

/-- Claim C4 witness. -/
theorem spec_c4_witness :
    getStoreInformation "S" (Except.ok (some " 0 "))
        (Except.error (JsError.otherError "boom")) =
      Except.ok { storeName := "S", information := fallbackMessage } :=
  spec_c4 "S" (some " 0 ") (JsError.otherError "boom") (Or.inl (by decide))

set_option maxRecDepth 20000 in
/-- Claim C5: with primary output `"0"` and the documented raw secondary
string, the result text is exactly the cleaned sentence — markdown link
removed, whitespace collapsed, space before the final period removed. -/
theorem spec_c5 :
    getStoreInformation "Acme"
        (Except.ok (some "0"))
        (Except.ok (ResponseData.str
          "Acme was founded in 1990 ([source](http://x))  extra   spaces .")) =
      Except.ok { storeName := "Acme"
                  information := "Acme was founded in 1990 extra spaces." } := by
  decide

/-- Claim C7: the extraction from the secondary response implements the
spec's three-variant decode with its precedence order, and a
non-matching value yields empty text and hence (through the sentinel
checks) the fixed fallback sentence. -/
theorem spec_c7 :
    (∀ d, extractText d = specDecodeSecondary d) ∧
    (∀ (n : String) (d : ResponseData), extractText d = "" →
      getStoreInformation n (Except.ok (some "0")) (Except.ok d) =
        Except.ok { storeName := n, information := fallbackMessage }) := by
  constructor
  · intro d
    have hpred : (fun it : RespItem =>
        it.type = "message" &&
          match it.content.head? with
          | some c => c.type = "output_text"
          | none => false) = isOutputTextMessage := by
      funext it
      rfl
    have hitems : ∀ items, extractFromItems items =
        match specSearchMessage items with
        | some t => if t = "" then "" else t
        | none => "" := by
      intro items
      unfold extractFromItems specSearchMessage
      rw [hpred]
      cases hfind : items.find? isOutputTextMessage with
      | none => rfl
      | some it =>
        obtain ⟨ty, cont⟩ := it
        cases cont with
        | nil => rfl
        | cons c rest =>
          obtain ⟨cty, ctext⟩ := c
          cases ctext with
          | none => rfl
          | some t => rfl
    cases d with
    | str s => rfl
    | obj o =>
      cases o with
      | none => rfl
      | some t =>
        by_cases ht : t = "" <;>
          simp [extractText, specDecodeSecondary, asString, truthyStr,
            outputTextField, asItems, ht]
    | arr o items =>
      cases o with
      | none =>
        simp only [extractText, specDecodeSecondary, asString, truthyStr,
          outputTextField, asItems, hitems items]
        cases specSearchMessage items with
        | none => simp
        | some t => by_cases ht : t = "" <;> simp [ht]
      | some t =>
        by_cases ht : t = "" <;>
          simp only [extractText, specDecodeSecondary, asString, truthyStr,
            outputTextField, asItems, hitems items, ht]
        · cases specSearchMessage items with
          | none => simp
          | some u => by_cases hu : u = "" <;> simp [hu]
        · simp [ht]
  · intro n d hd
    have h1 : cleanedOrSentinel d = "0" := by
      simp only [cleanedOrSentinel, hd]
      decide
    have h2 : selectedText (some "0") (Except.ok d) = cleanedOrSentinel d := by
      simp only [selectedText]
      rw [if_pos (Or.inl (by decide))]
    have h3 : finalText "0" = fallbackMessage := by decide
    simp only [getStoreInformation]
    rw [h2, h1, h3]

/-- Claim C7 witness. -/
theorem spec_c7_witness :
    getStoreInformation "S" (Except.ok (some "0"))
        (Except.ok (ResponseData.obj none)) =
      Except.ok { storeName := "S", information := fallbackMessage } :=
  spec_c7.2 "S" (ResponseData.obj none) rfl

/-- Claim C8: the operation yields either a complete response or an
error wrapped from the primary call: an `API_ERROR` carrying the
provider status and code for an `OpenAI.APIError`, a `NETWORK_ERROR`
for any other failure. -/
theorem spec_c8 (n : String) (p : Except JsError (Option String))
    (sec : Except JsError ResponseData) :
    (∃ resp, getStoreInformation n p sec = Except.ok resp) ∨
    (∃ e, p = Except.error e ∧
      getStoreInformation n p sec = Except.error (handleCatch e) ∧
      ((∃ st cd m, e = JsError.apiError st cd m ∧
          (handleCatch e).type = ErrorType.API_ERROR ∧
          (handleCatch e).details = some (ErrorDetails.statusCode st cd)) ∨
       (∃ m, e = JsError.otherError m ∧
          (handleCatch e).type = ErrorType.NETWORK_ERROR ∧
          (handleCatch e).details = some (ErrorDetails.cause e)))) := by
  cases p with
  | ok content => exact Or.inl ⟨_, rfl⟩
  | error e =>
    refine Or.inr ⟨e, rfl, rfl, ?_⟩
    cases e with
    | apiError st cd m => exact Or.inl ⟨st, cd, m, rfl, rfl, rfl⟩
    | otherError m => exact Or.inr ⟨m, rfl, rfl, rfl⟩

/-- Claim C9: configuration fails with a `CONFIGURATION_ERROR` exactly
when the API key is unset or empty; otherwise it succeeds, defaulting
the model to `"gpt-5-nano"` and the timeout to 30000 milliseconds when
the corresponding variables are unset. -/
theorem spec_c9 (env : Env) :
    ((∃ err, getOpenAIConfig env = Except.error err ∧
        err.type = ErrorType.CONFIGURATION_ERROR) ↔
      (env.OPENAI_API_KEY = none ∨ env.OPENAI_API_KEY = some "")) ∧
    (∀ k, env.OPENAI_API_KEY = some k → k ≠ "" →
      ∃ cfg, getOpenAIConfig env = Except.ok cfg ∧ cfg.apiKey = k ∧
        (env.OPENAI_MODEL = none → cfg.model = "gpt-5-nano") ∧
        (env.API_TIMEOUT = none → cfg.timeout = some 30000)) := by
  obtain ⟨key, mdl, tmo⟩ := env
  cases key with
  | none =>
    constructor
    · exact iff_of_true ⟨_, rfl, rfl⟩ (Or.inl rfl)
    · intro k hk
      exact Option.noConfusion hk
  | some k =>
    by_cases hk : k = ""
    · subst hk
      constructor
      · exact iff_of_true ⟨_, rfl, rfl⟩ (Or.inr rfl)
      · intro k' hk' hne
        injection hk' with h
        exact absurd h.symm hne
    · have hok : getOpenAIConfig ⟨some k, mdl, tmo⟩ =
          Except.ok
            { apiKey := k
              model :=
                match mdl with
                | some m => if m = "" then "gpt-5-nano" else m
                | none => "gpt-5-nano"
              timeout :=
                match tmo with
                | some t => if t = "" then some 30000 else jsParseInt t
                | none => some 30000 } := by
        unfold getOpenAIConfig
        rw [if_neg (by simpa using hk)]
        rfl
      constructor
      · constructor
        · rintro ⟨err, herr, -⟩
          rw [hok] at herr
          cases herr
        · rintro (h | h)
          · exact Option.noConfusion h
          · injection h with h'
            exact absurd h' hk
      · intro k' hk' hne
        injection hk' with h'
        subst h'
        refine ⟨_, hok, rfl, ?_, ?_⟩
        · intro hm
          subst hm
          rfl
        · intro ht
          subst ht
          rfl

/-- Claim C9 witness. -/
theorem spec_c9_witness :
    ∃ cfg, getOpenAIConfig ⟨some "k", none, none⟩ = Except.ok cfg ∧
      cfg.apiKey = "k" ∧ cfg.model = "gpt-5-nano" ∧
      cfg.timeout = some 30000 := by
  obtain ⟨cfg, h1, h2, h3, h4⟩ :=
    (spec_c9 ⟨some "k", none, none⟩).2 "k" rfl (by decide)
  exact ⟨cfg, h1, h2, h3 rfl, h4 rfl⟩

/-- Claim C10: for every identifier accepted by validation, the
`storeName` of a normally-returned response is the trimmed identifier,
whatever the remote calls return. -/
theorem spec_c10 (s : String) (p : Except JsError (Option String))
    (sec : Except JsError ResponseData) (resp : StoreInfoResponse)
    (hv : validateStoreName s = none)
    (h : getStoreInfo s p sec = Except.ok resp) :
    resp.storeName = jsTrim s := by
  unfold getStoreInfo at h
  rw [hv] at h
  cases p with
  | error e => exact absurd h (by simp [getStoreInformation])
  | ok content =>
    have hr : resp = { storeName := jsTrim s
                       information :=
                         finalText (selectedText content sec) } := by
      have := h.symm
      simpa [getStoreInformation] using this
    rw [hr]

/-- Claim C10 witness. -/
theorem spec_c10_witness :
    (StoreInfoResponse.mk "Apple" "Nice store.").storeName =
      jsTrim " Apple " :=
  spec_c10 " Apple " (Except.ok (some "Nice store."))
    (Except.ok (ResponseData.str "")) _ (by decide) (by decide)

/-! ## Towards idempotence of the cleanup chain (claim C6)

The proof shows that the output of `cleanL` is in the normal form
`cleanNormal`, and that every replacement of the chain is the identity
on normal-form lists. -/

/-! ### List utilities -/

theorem mem_of_mem_takeWhile {q : Char → Bool} {l : List Char} {c : Char}
    (h : c ∈ l.takeWhile q) : q c = true ∧ c ∈ l := by
  induction l with
  | nil => simp [List.takeWhile] at h
  | cons a t ih =>
    rw [List.takeWhile_cons] at h
    by_cases hq : q a
    · rw [if_pos hq] at h
      rcases List.mem_cons.mp h with h | h
      · exact ⟨h ▸ hq, h ▸ List.mem_cons_self a t⟩
      · exact ⟨(ih h).1, List.mem_cons_of_mem a (ih h).2⟩
    · rw [if_neg hq] at h
      exact absurd h (List.not_mem_nil c)

theorem mem_of_mem_dropWhile {q : Char → Bool} {l : List Char} {c : Char}
    (h : c ∈ l.dropWhile q) : c ∈ l := by
  induction l with
  | nil => simp at h
  | cons a t ih =>
    rw [List.dropWhile_cons] at h
    by_cases hq : q a
    · rw [if_pos hq] at h
      exact List.mem_cons_of_mem a (ih h)
    · rw [if_neg hq] at h
      exact h

theorem dropWhile_length_le (q : Char → Bool) (l : List Char) :
    (l.dropWhile q).length ≤ l.length := by
  induction l with
  | nil => simp
  | cons a t ih =>
    rw [List.dropWhile_cons]
    by_cases hq : q a
    · rw [if_pos hq]
      exact le_trans ih (Nat.le_succ _)
    · rw [if_neg hq]

theorem all_of_dropWhile_nil {q : Char → Bool} {l : List Char}
    (h : l.dropWhile q = []) : ∀ c ∈ l, q c = true := by
  induction l with
  | nil => intro c hc; simp at hc
  | cons a t ih =>
    rw [List.dropWhile_cons] at h
    by_cases hq : q a
    · rw [if_pos hq] at h
      intro c hc
      rcases List.mem_cons.mp hc with rfl | hc
      · exact hq
      · exact ih h c hc
    · rw [if_neg hq] at h
      exact absurd h (by simp)

theorem takeWhile_eq_self_of_dropWhile_nil {q : Char → Bool} {l : List Char}
    (h : l.dropWhile q = []) : l.takeWhile q = l := by
  have h2 := List.takeWhile_append_dropWhile q l
  rw [h, List.append_nil] at h2
  exact h2

theorem head_of_dropWhile_cons {q : Char → Bool} {l t : List Char} {b : Char}
    (h : l.dropWhile q = b :: t) : q b = false := by
  induction l with
  | nil => simp at h
  | cons a t2 ih =>
    rw [List.dropWhile_cons] at h
    by_cases hq : q a
    · rw [if_pos hq] at h
      exact ih h
    · rw [if_neg hq] at h
      injection h with h1 h2
      rw [← h1]
      exact Bool.eq_false_iff.mpr hq

/-! ### Character class facts -/

theorem bullet_not_ws {c : Char} (h : isBullet c = true) : isJsWs c = false := by
  simp only [isBullet, Bool.or_eq_true, decide_eq_true_eq] at h
  rcases h with (h | h) | h <;> subst h <;> decide

theorem ws_not_bullet {c : Char} (h : isJsWs c = true) : isBullet c = false := by
  by_contra hb
  rw [Bool.not_eq_false] at hb
  rw [bullet_not_ws hb] at h
  simp at h

theorem ws_not_paren {c : Char} (h : isJsWs c = true) : isParen c = false := by
  by_contra hp
  rw [Bool.not_eq_false] at hp
  simp only [isParen, Bool.or_eq_true, decide_eq_true_eq] at hp
  rcases hp with hp | hp <;> subst hp <;> exact absurd h (by decide)

theorem bullet_not_paren {c : Char} (h : isBullet c = true) :
    isParen c = false := by
  simp only [isBullet, Bool.or_eq_true, decide_eq_true_eq] at h
  rcases h with (h | h) | h <;> subst h <;> decide

/-! ### Normal-form predicate lemmas -/

theorem noAdjWs_cons {a : Char} {t : List Char} :
    noAdjWs (a :: t) ↔
      (∀ b, t.head? = some b → (isJsWs a = false ∨ isJsWs b = false)) ∧
        noAdjWs t := by
  cases t with
  | nil => simp [noAdjWs]
  | cons b t2 => simp [noAdjWs]

theorem noAdjWs_tail {a : Char} {t : List Char} (h : noAdjWs (a :: t)) :
    noAdjWs t :=
  (noAdjWs_cons.mp h).2

theorem noWsBefore_cons {p a : Char} {t : List Char} :
    noWsBefore p (a :: t) ↔
      (∀ b, t.head? = some b → (isJsWs a = false ∨ b ≠ p)) ∧
        noWsBefore p t := by
  cases t with
  | nil => simp [noWsBefore]
  | cons b t2 => simp [noWsBefore]

theorem noWsBefore_tail {p a : Char} {t : List Char}
    (h : noWsBefore p (a :: t)) : noWsBefore p t :=
  (noWsBefore_cons.mp h).2

theorem noWsBefore_of_all_ws {p : Char} (hp : isJsWs p = false)
    {l : List Char} (h : ∀ c ∈ l, isJsWs c = true) : noWsBefore p l := by
  induction l with
  | nil => trivial
  | cons a t ih =>
    refine noWsBefore_cons.mpr ⟨?_, ih (fun c hc => h c (List.mem_cons_of_mem a hc))⟩
    intro b hb
    right
    intro hbp
    subst hbp
    have := h b (by
      cases t with
      | nil => simp at hb
      | cons x t2 =>
        injection hb with hb2
        rw [← hb2]
        exact List.mem_cons_of_mem a (List.mem_cons_self x t2))
    rw [this] at hp
    cases hp

theorem lastOk_cons {c : Char} {r : List Char} (h : r ≠ []) :
    (lastOk (c :: r) ↔ lastOk r) := by
  cases r with
  | nil => exact absurd rfl h
  | cons y t => simp [lastOk]

theorem npp_cons_open {rest : List Char} :
    noParenPairL ('(' :: rest) ↔ ')' ∉ rest := by
  simp [noParenPairL]

theorem npp_cons_other {c : Char} {rest : List Char} (h : c ≠ '(') :
    noParenPairL (c :: rest) ↔ noParenPairL rest := by
  simp [noParenPairL, h]

theorem npp_of_not_mem {l : List Char} (h : ')' ∉ l) : noParenPairL l := by
  induction l with
  | nil => trivial
  | cons c rest ih =>
    by_cases hc : c = '('
    · subst hc
      exact npp_cons_open.mpr fun hm => h (List.mem_cons_of_mem _ hm)
    · exact (npp_cons_other hc).mpr
        (ih fun hm => h (List.mem_cons_of_mem _ hm))

theorem npp_decomp {l1 : List Char} : ∀ {l l2 : List Char}, noParenPairL l →
    l = l1 ++ '(' :: l2 → ')' ∉ l2 := by
  induction l1 with
  | nil =>
    intro l l2 h he
    rw [List.nil_append] at he
    subst he
    exact npp_cons_open.mp h
  | cons a l1' ih =>
    intro l l2 h he
    rw [List.cons_append] at he
    subst he
    by_cases ha : a = '('
    · subst ha
      have h' := npp_cons_open.mp h
      intro hm
      exact h' (List.mem_append.mpr (Or.inr (List.mem_cons_of_mem _ hm)))
    · exact ih ((npp_cons_other ha).mp h) rfl

theorem filterParens_eq_nil {xs : List Char}
    (h : ∀ c ∈ xs, isParen c = false) : filterParens xs = [] := by
  induction xs with
  | nil => rfl
  | cons a t ih =>
    have ha := h a (List.mem_cons_self a t)
    unfold filterParens at ih ⊢
    rw [List.filter_cons, ha]
    simp only [Bool.false_eq_true, if_false]
    exact ih fun c hc => h c (List.mem_cons_of_mem a hc)

theorem npp_filter (l : List Char) :
    noParenPairL l ↔ noParenPairL (filterParens l) := by
  induction l with
  | nil => simp [filterParens]
  | cons c rest ih =>
    by_cases hc : c = '('
    · subst hc
      have hf : filterParens ('(' :: rest) = '(' :: filterParens rest := by
        unfold filterParens
        rw [List.filter_cons]
        simp [isParen]
      rw [npp_cons_open, hf, npp_cons_open]
      constructor
      · intro h hm
        exact h (List.mem_of_mem_filter hm)
      · intro h hm
        exact h (List.mem_filter.mpr ⟨hm, by simp [isParen]⟩)
    · by_cases hc2 : c = ')'
      · subst hc2
        have hf : filterParens (')' :: rest) = ')' :: filterParens rest := by
          unfold filterParens
          rw [List.filter_cons]
          simp [isParen]
        rw [npp_cons_other (by decide), hf, npp_cons_other (by decide)]
        exact ih
      · have hf : filterParens (c :: rest) = filterParens rest := by
          unfold filterParens
          rw [List.filter_cons]
          simp [isParen, hc, hc2]
        rw [npp_cons_other hc, hf]
        exact ih

/-! ### `splitFirst` and `splitAtClose` -/

theorem splitFirst_eq {ch : Char} : ∀ {l b a : List Char},
    splitFirst ch l = some (b, a) → l = b ++ ch :: a := by
  intro l
  induction l with
  | nil => intro b a h; exact absurd h (by simp [splitFirst])
  | cons c rest ih =>
    intro b a h
    unfold splitFirst at h
    by_cases hc : c = ch
    · rw [if_pos hc] at h
      cases h
      simp [hc]
    · rw [if_neg hc] at h
      cases hs : splitFirst ch rest with
      | none => rw [hs] at h; exact absurd h (by simp)
      | some pr =>
        obtain ⟨b', a'⟩ := pr
        rw [hs] at h
        cases h
        rw [List.cons_append]
        exact congrArg (c :: ·) (ih hs)

theorem splitFirst_mem {ch : Char} {l b a : List Char}
    (h : splitFirst ch l = some (b, a)) : ch ∈ l := by
  rw [splitFirst_eq h]
  exact List.mem_append.mpr (Or.inr (List.mem_cons_self _ _))

theorem splitFirst_length {ch : Char} {l b a : List Char}
    (h : splitFirst ch l = some (b, a)) : a.length < l.length := by
  rw [splitFirst_eq h]
  simp [List.length_append]
  omega

theorem splitAtClose_some {l r : List Char} :
    splitAtClose l = some r → ∃ b, l = b ++ ')' :: r := by
  induction l with
  | nil => intro h; exact absurd h (by simp [splitAtClose])
  | cons c rest ih =>
    intro h
    unfold splitAtClose at h
    by_cases hc : c = ')'
    · rw [if_pos hc] at h
      cases h
      exact ⟨[], by simp [hc]⟩
    · rw [if_neg hc] at h
      obtain ⟨b, hb⟩ := ih h
      exact ⟨c :: b, by simp [hb]⟩

theorem splitAtClose_none {l : List Char} (h : splitAtClose l = none) :
    ')' ∉ l := by
  induction l with
  | nil => simp
  | cons c rest ih =>
    unfold splitAtClose at h
    by_cases hc : c = ')'
    · rw [if_pos hc] at h
      cases h
    · rw [if_neg hc] at h
      intro hm
      rcases List.mem_cons.mp hm with h1 | h2
      · exact hc h1.symm
      · exact ih h h2

theorem splitAtClose_length {l r : List Char} (h : splitAtClose l = some r) :
    r.length < l.length := by
  obtain ⟨b, hb⟩ := splitAtClose_some h
  rw [hb]
  simp [List.length_append]
  omega

theorem splitAtClose_sub {l r : List Char} (h : splitAtClose l = some r)
    {c : Char} (hc : c ∈ r) : c ∈ l := by
  obtain ⟨b, hb⟩ := splitAtClose_some h
  rw [hb]
  exact List.mem_append.mpr (Or.inr (List.mem_cons_of_mem _ hc))

theorem npp_tail {c : Char} {rest : List Char}
    (h : noParenPairL (c :: rest)) : noParenPairL rest := by
  by_cases hc : c = '('
  · subst hc
    exact npp_of_not_mem (npp_cons_open.mp h)
  · exact (npp_cons_other hc).mp h

/-! ### The markdown-link matchers fail on paren-pair-free text -/

theorem matchLink1_eq_none {l : List Char} (h : ')' ∉ l) :
    matchLink1 l = none := by
  cases l with
  | nil => rfl
  | cons c0 rest1 =>
    unfold matchLink1
    dsimp only
    by_cases h0 : c0 = '['
    · rw [if_pos h0]
      cases hs : splitFirst ']' rest1 with
      | none => rfl
      | some pr =>
        obtain ⟨txt, rest2⟩ := pr
        dsimp only
        by_cases ht : txt.isEmpty
        · rw [if_pos ht]
        · rw [if_neg ht]
          cases rest2 with
          | nil => rfl
          | cons c1 rest3 =>
            dsimp only
            by_cases h1 : c1 = '('
            · rw [if_pos h1]
              cases hs2 : splitFirst ')' rest3 with
              | none => rfl
              | some pr2 =>
                obtain ⟨url, rest4⟩ := pr2
                exfalso
                apply h
                have h3 : ')' ∈ rest3 := by
                  rw [splitFirst_eq hs2]
                  exact List.mem_append.mpr (Or.inr (List.mem_cons_self _ _))
                have h4 : ')' ∈ rest1 := by
                  rw [splitFirst_eq hs]
                  exact List.mem_append.mpr (Or.inr
                    (List.mem_cons_of_mem _ (List.mem_cons_of_mem _ h3)))
                exact List.mem_cons_of_mem _ h4
            · rw [if_neg h1]
    · rw [if_neg h0]

theorem matchLink2_paren {l r : List Char} (h : matchLink2 l = some r) :
    ∃ l1 l2, l = l1 ++ '(' :: l2 ∧ ')' ∈ l2 := by
  unfold matchLink2 at h
  cases hs : splitFirst ']' l with
  | none => rw [hs] at h; cases h
  | some pr =>
    obtain ⟨txt, rest1⟩ := pr
    rw [hs] at h
    dsimp only at h
    by_cases ht : txt.isEmpty
    · rw [if_pos ht] at h; cases h
    · rw [if_neg ht] at h
      cases rest1 with
      | nil => cases h
      | cons c1 rest2 =>
        dsimp only at h
        by_cases h1 : c1 = '('
        · rw [if_pos h1] at h
          cases hs2 : splitFirst ')' rest2 with
          | none => rw [hs2] at h; cases h
          | some pr2 =>
            obtain ⟨url, rest3⟩ := pr2
            refine ⟨txt ++ [']'], rest2, ?_, ?_⟩
            · rw [splitFirst_eq hs, h1]
              simp
            · rw [splitFirst_eq hs2]
              exact List.mem_append.mpr (Or.inr (List.mem_cons_self _ _))
        · rw [if_neg h1] at h; cases h

/-! ### The three parenthesis replacements on paren-pair-free text -/

theorem removeLink1F_nop : ∀ (fuel : Nat) {l : List Char}, noParenPairL l →
    removeLink1F fuel l = l := by
  intro fuel
  induction fuel with
  | zero => intro l _; rfl
  | succ fuel ih =>
    intro l h
    cases l with
    | nil => rfl
    | cons c rest =>
      unfold removeLink1F
      by_cases hc : c = '('
      · subst hc
        have hnr : ')' ∉ rest := npp_cons_open.mp h
        rw [if_pos rfl, matchLink1_eq_none hnr]
        dsimp only
        exact congrArg _ (ih (npp_of_not_mem hnr))
      · rw [if_neg hc]
        exact congrArg _ (ih (npp_tail h))

theorem removeLink2F_nop : ∀ (fuel : Nat) {l : List Char}, noParenPairL l →
    removeLink2F fuel l = l := by
  intro fuel
  induction fuel with
  | zero => intro l _; rfl
  | succ fuel ih =>
    intro l h
    cases l with
    | nil => rfl
    | cons c rest =>
      unfold removeLink2F
      by_cases hc : c = '['
      · subst hc
        have hrest : noParenPairL rest := npp_tail h
        have hm : matchLink2 rest = none := by
          cases hm2 : matchLink2 rest with
          | none => rfl
          | some r2 =>
            exfalso
            obtain ⟨l1, l2, hdec, hmem⟩ := matchLink2_paren hm2
            exact npp_decomp hrest hdec hmem
        rw [if_pos rfl, hm]
        dsimp only
        exact congrArg _ (ih hrest)
      · rw [if_neg hc]
        exact congrArg _ (ih (npp_tail h))

theorem removeParensF_nop : ∀ (fuel : Nat) {l : List Char}, noParenPairL l →
    removeParensF fuel l = l := by
  intro fuel
  induction fuel with
  | zero => intro l _; rfl
  | succ fuel ih =>
    intro l h
    cases l with
    | nil => rfl
    | cons c rest =>
      unfold removeParensF
      by_cases hc : c = '('
      · subst hc
        have hnr : ')' ∉ rest := npp_cons_open.mp h
        have hs : splitAtClose rest = none := by
          cases hs2 : splitAtClose rest with
          | none => rfl
          | some r2 =>
            exfalso
            obtain ⟨b, hb⟩ := splitAtClose_some hs2
            exact hnr (by
              rw [hb]
              exact List.mem_append.mpr (Or.inr (List.mem_cons_self _ _)))
        rw [if_pos rfl, hs]
        dsimp only
        exact congrArg _ (ih (npp_of_not_mem hnr))
      · rw [if_neg hc]
        exact congrArg _ (ih (npp_tail h))

theorem removeParensF_mem : ∀ (fuel : Nat) {l : List Char} {c : Char},
    c ∈ removeParensF fuel l → c ∈ l := by
  intro fuel
  induction fuel with
  | zero => intro l c h; exact h
  | succ fuel ih =>
    intro l c h
    cases l with
    | nil => exact h
    | cons a rest =>
      unfold removeParensF at h
      by_cases ha : a = '('
      · rw [if_pos ha] at h
        cases hs : splitAtClose rest with
        | some rest2 =>
          rw [hs] at h
          dsimp only at h
          exact List.mem_cons_of_mem _ (splitAtClose_sub hs (ih h))
        | none =>
          rw [hs] at h
          dsimp only at h
          rcases List.mem_cons.mp h with rfl | h2
          · exact List.mem_cons_self _ _
          · exact List.mem_cons_of_mem _ (ih h2)
      · rw [if_neg ha] at h
        rcases List.mem_cons.mp h with rfl | h2
        · exact List.mem_cons_self _ _
        · exact List.mem_cons_of_mem _ (ih h2)

theorem removeParensF_npp : ∀ (fuel : Nat) {l : List Char},
    l.length ≤ fuel → noParenPairL (removeParensF fuel l) := by
  intro fuel
  induction fuel with
  | zero =>
    intro l hl
    have hnil : l = [] := List.eq_nil_of_length_eq_zero (Nat.le_zero.mp hl)
    subst hnil
    trivial
  | succ fuel ih =>
    intro l hl
    cases l with
    | nil => trivial
    | cons a rest =>
      have hrest : rest.length ≤ fuel := by
        simp only [List.length_cons] at hl
        omega
      unfold removeParensF
      by_cases ha : a = '('
      · rw [if_pos ha]
        cases hs : splitAtClose rest with
        | some rest2 =>
          dsimp only
          exact ih (le_of_lt (lt_of_lt_of_le (splitAtClose_length hs) hrest))
        | none =>
          dsimp only
          subst ha
          rw [npp_cons_open]
          intro hm
          exact splitAtClose_none hs (removeParensF_mem fuel hm)
      · rw [if_neg ha]
        rw [npp_cons_other ha]
        exact ih hrest

/-! ### `filterParens` helpers -/

theorem bool_not_true {b : Bool} (h : ¬b = true) : b = false := by
  cases b
  · rfl
  · exact absurd rfl h

theorem bool_false_not_true {b : Bool} (h : b = false) : ¬b = true := by
  intro h2
  rw [h] at h2
  cases h2

theorem filterParens_cons_not (c : Char) (h : isParen c = false)
    (l : List Char) : filterParens (c :: l) = filterParens l := by
  unfold filterParens
  rw [List.filter_cons, h]
  simp

theorem filterParens_cons_congr {x y : List Char} (c : Char)
    (h : filterParens x = filterParens y) :
    filterParens (c :: x) = filterParens (c :: y) := by
  unfold filterParens at h ⊢
  rw [List.filter_cons, List.filter_cons, h]

theorem filterParens_append (a b : List Char) :
    filterParens (a ++ b) = filterParens a ++ filterParens b := by
  unfold filterParens
  exact List.filter_append a b

theorem filterParens_takeWhile {q : Char → Bool}
    (hq : ∀ c, q c = true → isParen c = false) (l : List Char) :
    filterParens (l.takeWhile q) = [] :=
  filterParens_eq_nil fun c hc => hq c (mem_of_mem_takeWhile hc).1

theorem filterParens_dropWhile {q : Char → Bool}
    (hq : ∀ c, q c = true → isParen c = false) (l : List Char) :
    filterParens (l.dropWhile q) = filterParens l := by
  induction l with
  | nil => rfl
  | cons a t ih =>
    rw [List.dropWhile_cons]
    by_cases hqa : q a
    · rw [if_pos hqa, filterParens_cons_not a (hq a hqa)]
      exact ih
    · rw [if_neg hqa]

theorem wsNotParen : ∀ c, isJsWs c = true → isParen c = false :=
  fun _ h => ws_not_paren h

theorem nlNotParen : ∀ c : Char, (c = '\n' : Bool) = true → isParen c = false := by
  intro c h
  rw [of_decide_eq_true h]
  decide

/-! ### Replacement 4 (`\n\n+`) and replacement 5 (`\n`) -/

theorem collapseNLF_nop : ∀ (fuel : Nat) {l : List Char},
    '\n' ∉ l → collapseNLF fuel l = l := by
  intro fuel
  induction fuel with
  | zero => intro l _; rfl
  | succ fuel ih =>
    intro l h
    cases l with
    | nil => rfl
    | cons c rest =>
      unfold collapseNLF
      have hc : ¬c = '\n' := fun hh =>
        h (by rw [← hh]; exact List.mem_cons_self _ _)
      rw [if_neg hc]
      exact congrArg _ (ih fun hm => h (List.mem_cons_of_mem _ hm))

theorem collapseNLF_filterParens : ∀ (fuel : Nat) {l : List Char},
    l.length ≤ fuel → filterParens (collapseNLF fuel l) = filterParens l := by
  intro fuel
  induction fuel with
  | zero =>
    intro l hl
    have hnil : l = [] := List.eq_nil_of_length_eq_zero (Nat.le_zero.mp hl)
    subst hnil
    rfl
  | succ fuel ih =>
    intro l hl
    cases l with
    | nil => rfl
    | cons c rest =>
      have hrest : rest.length ≤ fuel := by
        simp only [List.length_cons] at hl
        omega
      unfold collapseNLF
      by_cases hc : c = '\n'
      · rw [if_pos hc]
        cases rest with
        | nil => rfl
        | cons d rest2 =>
          dsimp only
          have hrest2 : rest2.length ≤ fuel := by
            simp only [List.length_cons] at hl
            omega
          by_cases hd : d = '\n'
          · rw [if_pos hd]
            rw [filterParens_cons_not ' ' (by decide)]
            rw [ih (le_trans (dropWhile_length_le _ _) hrest2)]
            rw [filterParens_cons_not c (by rw [hc]; decide)]
            rw [filterParens_cons_not d (by rw [hd]; decide)]
            exact filterParens_dropWhile nlNotParen rest2
          · rw [if_neg hd]
            exact filterParens_cons_congr c (ih hrest)
      · rw [if_neg hc]
        exact filterParens_cons_congr c (ih hrest)

theorem mapNewlines_filterParens (l : List Char) :
    filterParens (mapNewlines l) = filterParens l := by
  induction l with
  | nil => rfl
  | cons c rest ih =>
    unfold mapNewlines at ih ⊢
    rw [List.map_cons]
    by_cases hc : c = '\n'
    · rw [if_pos hc]
      rw [filterParens_cons_not ' ' (by decide)]
      rw [filterParens_cons_not c (by rw [hc]; decide)]
      exact ih
    · rw [if_neg hc]
      exact filterParens_cons_congr c ih

theorem mapNewlines_no_nl (l : List Char) : '\n' ∉ mapNewlines l := by
  intro hm
  unfold mapNewlines at hm
  obtain ⟨c, _, he⟩ := List.mem_map.mp hm
  by_cases h : c = '\n'
  · rw [if_pos h] at he
    exact absurd he (by decide)
  · rw [if_neg h] at he
    exact h he

theorem mapNewlines_nop : ∀ {l : List Char}, '\n' ∉ l → mapNewlines l = l := by
  intro l
  induction l with
  | nil => intro _; rfl
  | cons c rest ih =>
    intro h
    unfold mapNewlines
    rw [List.map_cons]
    have hc : ¬c = '\n' := fun hh =>
      h (by rw [← hh]; exact List.mem_cons_self _ _)
    rw [if_neg hc]
    have h2 := ih fun hm => h (List.mem_cons_of_mem _ hm)
    unfold mapNewlines at h2
    rw [h2]

/-! ### Replacement 6 (`\s*[•·-]\s*`) -/

theorem removeBulletsF_mem : ∀ (fuel : Nat) {l : List Char} {c : Char},
    c ∈ removeBulletsF fuel l → c ∈ l ∨ c = ' ' := by
  intro fuel
  induction fuel with
  | zero => intro l c h; exact Or.inl h
  | succ fuel ih =>
    intro l c h
    cases l with
    | nil => exact Or.inl h
    | cons a rest =>
      unfold removeBulletsF at h
      by_cases hb : isBullet a
      · rw [if_pos hb] at h
        rcases List.mem_cons.mp h with rfl | h2
        · exact Or.inr rfl
        · rcases ih h2 with h3 | h3
          · exact Or.inl (List.mem_cons_of_mem _ (mem_of_mem_dropWhile h3))
          · exact Or.inr h3
      · rw [if_neg hb] at h
        by_cases hw : isJsWs a
        · rw [if_pos hw] at h
          cases hdw : rest.dropWhile isJsWs with
          | nil =>
            rw [hdw] at h
            dsimp only at h
            rcases List.mem_cons.mp h with rfl | h2
            · exact Or.inl (List.mem_cons_self _ _)
            · exact Or.inl
                (List.mem_cons_of_mem _ (mem_of_mem_takeWhile h2).2)
          | cons b rest2 =>
            rw [hdw] at h
            dsimp only at h
            by_cases hbb : isBullet b
            · rw [if_pos hbb] at h
              rcases List.mem_cons.mp h with rfl | h2
              · exact Or.inr rfl
              · rcases ih h2 with h3 | h3
                · have h4 : c ∈ rest.dropWhile isJsWs := by
                    rw [hdw]
                    exact List.mem_cons_of_mem _ (mem_of_mem_dropWhile h3)
                  exact Or.inl
                    (List.mem_cons_of_mem _ (mem_of_mem_dropWhile h4))
                · exact Or.inr h3
            · rw [if_neg hbb] at h
              rcases List.mem_append.mp h with h2 | h2
              · rcases List.mem_cons.mp h2 with rfl | h3
                · exact Or.inl (List.mem_cons_self _ _)
                · exact Or.inl
                    (List.mem_cons_of_mem _ (mem_of_mem_takeWhile h3).2)
              · rcases ih h2 with h3 | h3
                · have h4 : c ∈ rest.dropWhile isJsWs := by rw [hdw]; exact h3
                  exact Or.inl
                    (List.mem_cons_of_mem _ (mem_of_mem_dropWhile h4))
                · exact Or.inr h3
        · rw [if_neg hw] at h
          rcases List.mem_cons.mp h with rfl | h2
          · exact Or.inl (List.mem_cons_self _ _)
          · rcases ih h2 with h3 | h3
            · exact Or.inl (List.mem_cons_of_mem _ h3)
            · exact Or.inr h3

theorem removeBulletsF_filterParens : ∀ (fuel : Nat) {l : List Char},
    l.length ≤ fuel →
    filterParens (removeBulletsF fuel l) = filterParens l := by
  intro fuel
  induction fuel with
  | zero => intro l _; rfl
  | succ fuel ih =>
    intro l hl
    cases l with
    | nil => rfl
    | cons a rest =>
      have hrest : rest.length ≤ fuel := by
        simp only [List.length_cons] at hl
        omega
      unfold removeBulletsF
      by_cases hb : isBullet a
      · rw [if_pos hb]
        rw [filterParens_cons_not ' ' (by decide)]
        rw [ih (le_trans (dropWhile_length_le _ _) hrest)]
        rw [filterParens_cons_not a (bullet_not_paren hb)]
        exact filterParens_dropWhile wsNotParen rest
      · rw [if_neg hb]
        by_cases hw : isJsWs a
        · rw [if_pos hw]
          cases hdw : rest.dropWhile isJsWs with
          | nil =>
            dsimp only
            rw [takeWhile_eq_self_of_dropWhile_nil hdw]
          | cons b rest2 =>
            dsimp only
            have hX3 : (b :: rest2).length ≤ fuel := by
              have h2 := dropWhile_length_le isJsWs rest
              rw [hdw] at h2
              omega
            have hX2 : (rest2.dropWhile isJsWs).length ≤ fuel := by
              have h1 := dropWhile_length_le isJsWs rest2
              simp only [List.length_cons] at hX3
              omega
            have hR : filterParens (a :: rest) = filterParens (b :: rest2) := by
              rw [filterParens_cons_not a (ws_not_paren hw)]
              conv_lhs => rw [← List.takeWhile_append_dropWhile isJsWs rest]
              rw [filterParens_append, filterParens_takeWhile wsNotParen rest,
                List.nil_append, hdw]
            by_cases hbb : isBullet b
            · rw [if_pos hbb]
              rw [filterParens_cons_not ' ' (by decide), ih hX2, hR]
              rw [filterParens_cons_not b (bullet_not_paren hbb)]
              exact filterParens_dropWhile wsNotParen rest2
            · rw [if_neg hbb]
              rw [filterParens_append, ih hX3, hR]
              rw [filterParens_cons_not a (ws_not_paren hw)
                (rest.takeWhile isJsWs)]
              rw [filterParens_takeWhile wsNotParen rest, List.nil_append]
        · rw [if_neg hw]
          exact filterParens_cons_congr a (ih hrest)

theorem removeBulletsF_noBullets : ∀ (fuel : Nat) {l : List Char},
    l.length ≤ fuel → noBullets (removeBulletsF fuel l) := by
  intro fuel
  induction fuel with
  | zero =>
    intro l hl
    have hnil : l = [] := List.eq_nil_of_length_eq_zero (Nat.le_zero.mp hl)
    subst hnil
    intro c hc
    unfold removeBulletsF at hc
    simp at hc
  | succ fuel ih =>
    intro l hl
    cases l with
    | nil =>
      intro c hc
      unfold removeBulletsF at hc
      simp at hc
    | cons a rest =>
      have hrest : rest.length ≤ fuel := by
        simp only [List.length_cons] at hl
        omega
      unfold removeBulletsF
      by_cases hb : isBullet a
      · rw [if_pos hb]
        intro c hc
        rcases List.mem_cons.mp hc with rfl | h2
        · decide
        · exact ih (le_trans (dropWhile_length_le _ _) hrest) c h2
      · rw [if_neg hb]
        by_cases hw : isJsWs a
        · rw [if_pos hw]
          cases hdw : rest.dropWhile isJsWs with
          | nil =>
            dsimp only
            intro c hc
            rcases List.mem_cons.mp hc with rfl | h2
            · exact ws_not_bullet hw
            · exact ws_not_bullet (mem_of_mem_takeWhile h2).1
          | cons b rest2 =>
            dsimp only
            have hX3 : (b :: rest2).length ≤ fuel := by
              have h2 := dropWhile_length_le isJsWs rest
              rw [hdw] at h2
              omega
            have hX2 : (rest2.dropWhile isJsWs).length ≤ fuel := by
              have h1 := dropWhile_length_le isJsWs rest2
              simp only [List.length_cons] at hX3
              omega
            by_cases hbb : isBullet b
            · rw [if_pos hbb]
              intro c hc
              rcases List.mem_cons.mp hc with rfl | h2
              · decide
              · exact ih hX2 c h2
            · rw [if_neg hbb]
              intro c hc
              rcases List.mem_append.mp hc with h2 | h2
              · rcases List.mem_cons.mp h2 with rfl | h3
                · exact ws_not_bullet hw
                · exact ws_not_bullet (mem_of_mem_takeWhile h3).1
              · exact ih hX3 c h2
        · rw [if_neg hw]
          intro c hc
          rcases List.mem_cons.mp hc with rfl | h2
          · exact bool_not_true hb
          · exact ih hrest c h2

theorem removeBulletsF_nop : ∀ (fuel : Nat) {l : List Char}, noBullets l →
    removeBulletsF fuel l = l := by
  intro fuel
  induction fuel with
  | zero => intro l _; rfl
  | succ fuel ih =>
    intro l h
    cases l with
    | nil => rfl
    | cons a rest =>
      have hb : isBullet a = false := h a (List.mem_cons_self _ _)
      have htail : noBullets rest := fun c hc =>
        h c (List.mem_cons_of_mem _ hc)
      unfold removeBulletsF
      rw [if_neg (bool_false_not_true hb)]
      by_cases hw : isJsWs a
      · rw [if_pos hw]
        cases hdw : rest.dropWhile isJsWs with
        | nil =>
          dsimp only
          rw [takeWhile_eq_self_of_dropWhile_nil hdw]
        | cons b rest2 =>
          dsimp only
          have hbmem : b ∈ rest := mem_of_mem_dropWhile (q := isJsWs) (by
            rw [hdw]
            exact List.mem_cons_self _ _)
          have hbb : isBullet b = false := htail b hbmem
          rw [if_neg (bool_false_not_true hbb)]
          have hdrop : noBullets (b :: rest2) := fun c hc =>
            htail c (mem_of_mem_dropWhile (q := isJsWs) (by rw [hdw]; exact hc))
          rw [ih hdrop, List.cons_append]
          refine congrArg _ ?_
          rw [← hdw]
          exact List.takeWhile_append_dropWhile isJsWs rest
      · rw [if_neg hw]
        exact congrArg _ (ih htail)

/-! ### Replacement 7 (`\s+`) -/

theorem collapseWs_head {b : Char} (hb : isJsWs b = false) (rest : List Char) :
    collapseWs (b :: rest) = b :: collapseWs rest := by
  conv_lhs => unfold collapseWs
  rw [if_neg (bool_false_not_true hb)]

theorem collapseWs_mem : ∀ {l : List Char} {c : Char},
    c ∈ collapseWs l → c ∈ l ∨ c = ' ' := by
  intro l
  induction l with
  | nil => intro c h; exact Or.inl h
  | cons a rest ih =>
    intro c h
    unfold collapseWs at h
    by_cases hw : isJsWs a
    · rw [if_pos hw] at h
      cases rest with
      | nil =>
        dsimp only at h
        rcases List.mem_cons.mp h with rfl | h2
        · exact Or.inr rfl
        · simp at h2
      | cons d rest2 =>
        dsimp only at h
        by_cases hd : isJsWs d
        · rw [if_pos hd] at h
          rcases ih h with h3 | h3
          · exact Or.inl (List.mem_cons_of_mem _ h3)
          · exact Or.inr h3
        · rw [if_neg hd] at h
          rcases List.mem_cons.mp h with rfl | h2
          · exact Or.inr rfl
          · rcases ih h2 with h3 | h3
            · exact Or.inl (List.mem_cons_of_mem _ h3)
            · exact Or.inr h3
    · rw [if_neg hw] at h
      rcases List.mem_cons.mp h with rfl | h2
      · exact Or.inl (List.mem_cons_self _ _)
      · rcases ih h2 with h3 | h3
        · exact Or.inl (List.mem_cons_of_mem _ h3)
        · exact Or.inr h3

theorem collapseWs_allWsSpace : ∀ (l : List Char), allWsSpace (collapseWs l) := by
  intro l
  induction l with
  | nil =>
    intro c hc _
    unfold collapseWs at hc
    simp at hc
  | cons a rest ih =>
    intro c hc hcw
    unfold collapseWs at hc
    by_cases hw : isJsWs a
    · rw [if_pos hw] at hc
      cases rest with
      | nil =>
        dsimp only at hc
        rcases List.mem_cons.mp hc with rfl | h2
        · rfl
        · simp at h2
      | cons d rest2 =>
        dsimp only at hc
        by_cases hd : isJsWs d
        · rw [if_pos hd] at hc
          exact ih c hc hcw
        · rw [if_neg hd] at hc
          rcases List.mem_cons.mp hc with rfl | h2
          · rfl
          · exact ih c h2 hcw
    · rw [if_neg hw] at hc
      rcases List.mem_cons.mp hc with rfl | h2
      · exact absurd hcw hw
      · exact ih c h2 hcw

theorem collapseWs_noAdjWs : ∀ (l : List Char), noAdjWs (collapseWs l) := by
  intro l
  induction l with
  | nil => exact trivial
  | cons a rest ih =>
    by_cases hw : isJsWs a
    · cases rest with
      | nil =>
        unfold collapseWs
        rw [if_pos hw]
        exact trivial
      | cons d rest2 =>
        unfold collapseWs
        rw [if_pos hw]
        dsimp only
        by_cases hd : isJsWs d
        · rw [if_pos hd]
          exact ih
        · rw [if_neg hd]
          rw [collapseWs_head (bool_not_true hd) rest2]
          refine noAdjWs_cons.mpr ⟨?_, ?_⟩
          · intro b hb
            injection hb with hb
            right
            rw [← hb]
            exact bool_not_true hd
          · have h2 := ih
            rw [collapseWs_head (bool_not_true hd) rest2] at h2
            exact h2
    · unfold collapseWs
      rw [if_neg hw]
      refine noAdjWs_cons.mpr ⟨?_, ih⟩
      intro b _
      left
      exact bool_not_true hw

theorem collapseWs_nop : ∀ {l : List Char}, allWsSpace l → noAdjWs l →
    collapseWs l = l := by
  intro l
  induction l with
  | nil => intro _ _; rfl
  | cons a rest ih =>
    intro hws hadj
    unfold collapseWs
    by_cases hw : isJsWs a
    · rw [if_pos hw]
      have ha : a = ' ' := hws a (List.mem_cons_self _ _) hw
      cases rest with
      | nil =>
        dsimp only
        rw [ha]
      | cons d rest2 =>
        dsimp only
        have hd : isJsWs d = false := by
          rcases (noAdjWs_cons.mp hadj).1 d rfl with h | h
          · rw [h] at hw
            cases hw
          · exact h
        rw [if_neg (bool_false_not_true hd), ha]
        exact congrArg _
          (ih (fun c hc hcw => hws c (List.mem_cons_of_mem _ hc) hcw)
            (noAdjWs_tail hadj))
    · rw [if_neg hw]
      exact congrArg _
        (ih (fun c hc hcw => hws c (List.mem_cons_of_mem _ hc) hcw)
          (noAdjWs_tail hadj))

/-! ### Replacements 8 and 9 (`\s+\.`, `\s+,`) -/

theorem adj_rest_eq {a b : Char} {rest rest2 : List Char}
    (hw : isJsWs a = true) (hadj : noAdjWs (a :: rest))
    (hdw : rest.dropWhile isJsWs = b :: rest2) : rest = b :: rest2 := by
  cases rest with
  | nil =>
    rw [List.dropWhile_nil] at hdw
    cases hdw
  | cons d t =>
    have hd : isJsWs d = false := by
      rcases (noAdjWs_cons.mp hadj).1 d rfl with h | h
      · rw [h] at hw
        cases hw
      · exact h
    rw [List.dropWhile_cons, if_neg (bool_false_not_true hd)] at hdw
    exact hdw

theorem adj_takeWhile_nil {a b : Char} {rest rest2 : List Char}
    (hw : isJsWs a = true) (hadj : noAdjWs (a :: rest))
    (hdw : rest.dropWhile isJsWs = b :: rest2) :
    rest.takeWhile isJsWs = [] := by
  rw [adj_rest_eq hw hadj hdw, List.takeWhile_cons,
    if_neg (bool_false_not_true (head_of_dropWhile_cons hdw))]

theorem fixSpaceBeforeF_head {p b : Char} (hb : isJsWs b = false)
    (fuel : Nat) (rest : List Char) :
    (fixSpaceBeforeF p fuel (b :: rest)).head? = some b := by
  cases fuel with
  | zero => rfl
  | succ fuel =>
    unfold fixSpaceBeforeF
    rw [if_neg (bool_false_not_true hb)]
    rfl

theorem fixSpaceBeforeF_mem {p : Char} : ∀ (fuel : Nat) {l : List Char}
    {c : Char}, c ∈ fixSpaceBeforeF p fuel l → c ∈ l ∨ c = p := by
  intro fuel
  induction fuel with
  | zero => intro l c h; exact Or.inl h
  | succ fuel ih =>
    intro l c h
    cases l with
    | nil => exact Or.inl h
    | cons a rest =>
      unfold fixSpaceBeforeF at h
      by_cases hw : isJsWs a
      · rw [if_pos hw] at h
        cases hdw : rest.dropWhile isJsWs with
        | nil =>
          rw [hdw] at h
          dsimp only at h
          rcases List.mem_cons.mp h with rfl | h2
          · exact Or.inl (List.mem_cons_self _ _)
          · exact Or.inl (List.mem_cons_of_mem _ (mem_of_mem_takeWhile h2).2)
        | cons b rest2 =>
          rw [hdw] at h
          dsimp only at h
          by_cases hbp : b = p
          · rw [if_pos hbp] at h
            rcases List.mem_cons.mp h with rfl | h2
            · exact Or.inr rfl
            · rcases ih h2 with h3 | h3
              · have h4 : c ∈ rest.dropWhile isJsWs := by
                  rw [hdw]
                  exact List.mem_cons_of_mem _ h3
                exact Or.inl
                  (List.mem_cons_of_mem _ (mem_of_mem_dropWhile h4))
              · exact Or.inr h3
          · rw [if_neg hbp] at h
            rcases List.mem_append.mp h with h2 | h2
            · rcases List.mem_cons.mp h2 with rfl | h3
              · exact Or.inl (List.mem_cons_self _ _)
              · exact Or.inl
                  (List.mem_cons_of_mem _ (mem_of_mem_takeWhile h3).2)
            · rcases ih h2 with h3 | h3
              · have h4 : c ∈ rest.dropWhile isJsWs := by rw [hdw]; exact h3
                exact Or.inl
                  (List.mem_cons_of_mem _ (mem_of_mem_dropWhile h4))
              · exact Or.inr h3
      · rw [if_neg hw] at h
        rcases List.mem_cons.mp h with rfl | h2
        · exact Or.inl (List.mem_cons_self _ _)
        · rcases ih h2 with h3 | h3
          · exact Or.inl (List.mem_cons_of_mem _ h3)
          · exact Or.inr h3

theorem fixSpaceBeforeF_noAdjWs {p : Char} (hp : isJsWs p = false) :
    ∀ (fuel : Nat) {l : List Char}, l.length ≤ fuel → noAdjWs l →
    noAdjWs (fixSpaceBeforeF p fuel l) := by
  intro fuel
  induction fuel with
  | zero => intro l _ h; exact h
  | succ fuel ih =>
    intro l hl hadj
    cases l with
    | nil => exact trivial
    | cons a rest =>
      have hrest : rest.length ≤ fuel := by
        simp only [List.length_cons] at hl
        omega
      unfold fixSpaceBeforeF
      by_cases hw : isJsWs a
      · rw [if_pos hw]
        cases hdw : rest.dropWhile isJsWs with
        | nil =>
          dsimp only
          cases hre : rest with
          | nil => exact trivial
          | cons d t =>
            exfalso
            have hd : isJsWs d = false := by
              rcases (noAdjWs_cons.mp hadj).1 d (by rw [hre]; rfl) with h | h
              · rw [h] at hw
                cases hw
              · exact h
            rw [hre, List.dropWhile_cons,
              if_neg (bool_false_not_true hd)] at hdw
            cases hdw
        | cons b rest2 =>
          dsimp only
          have hb : isJsWs b = false := head_of_dropWhile_cons hdw
          have hre : rest = b :: rest2 := adj_rest_eq hw hadj hdw
          have hadj2 : noAdjWs (b :: rest2) := by
            rw [← hre]
            exact noAdjWs_tail hadj
          by_cases hbp : b = p
          · rw [if_pos hbp]
            refine noAdjWs_cons.mpr ⟨?_, ?_⟩
            · intro bb _
              left
              exact hp
            · have hlen2 : rest2.length ≤ fuel := by
                rw [hre] at hrest
                simp only [List.length_cons] at hrest
                omega
              exact ih hlen2 (noAdjWs_tail hadj2)
          · rw [if_neg hbp]
            rw [adj_takeWhile_nil hw hadj hdw]
            simp only [List.cons_append, List.nil_append]
            refine noAdjWs_cons.mpr ⟨?_, ?_⟩
            · intro bb hbb
              rw [fixSpaceBeforeF_head hb fuel rest2] at hbb
              injection hbb with hbb
              right
              rw [← hbb]
              exact hb
            · rw [← hre]
              exact ih hrest (hre ▸ hadj2)
      · rw [if_neg hw]
        refine noAdjWs_cons.mpr ⟨?_, ih hrest (noAdjWs_tail hadj)⟩
        intro bb _
        left
        exact bool_not_true hw

theorem fixSpaceBeforeF_est {p : Char} (hp : isJsWs p = false) :
    ∀ (fuel : Nat) {l : List Char}, l.length ≤ fuel → noAdjWs l →
    noWsBefore p (fixSpaceBeforeF p fuel l) := by
  intro fuel
  induction fuel with
  | zero =>
    intro l hl _
    have hnil : l = [] := List.eq_nil_of_length_eq_zero (Nat.le_zero.mp hl)
    subst hnil
    exact trivial
  | succ fuel ih =>
    intro l hl hadj
    cases l with
    | nil => exact trivial
    | cons a rest =>
      have hrest : rest.length ≤ fuel := by
        simp only [List.length_cons] at hl
        omega
      unfold fixSpaceBeforeF
      by_cases hw : isJsWs a
      · rw [if_pos hw]
        cases hdw : rest.dropWhile isJsWs with
        | nil =>
          dsimp only
          cases hre : rest with
          | nil => exact trivial
          | cons d t =>
            exfalso
            have hd : isJsWs d = false := by
              rcases (noAdjWs_cons.mp hadj).1 d (by rw [hre]; rfl) with h | h
              · rw [h] at hw
                cases hw
              · exact h
            rw [hre, List.dropWhile_cons,
              if_neg (bool_false_not_true hd)] at hdw
            cases hdw
        | cons b rest2 =>
          dsimp only
          have hb : isJsWs b = false := head_of_dropWhile_cons hdw
          have hre : rest = b :: rest2 := adj_rest_eq hw hadj hdw
          have hadj2 : noAdjWs (b :: rest2) := by
            rw [← hre]
            exact noAdjWs_tail hadj
          by_cases hbp : b = p
          · rw [if_pos hbp]
            refine noWsBefore_cons.mpr ⟨?_, ?_⟩
            · intro bb _
              left
              exact hp
            · have hlen2 : rest2.length ≤ fuel := by
                rw [hre] at hrest
                simp only [List.length_cons] at hrest
                omega
              exact ih hlen2 (noAdjWs_tail hadj2)
          · rw [if_neg hbp]
            rw [adj_takeWhile_nil hw hadj hdw]
            simp only [List.cons_append, List.nil_append]
            refine noWsBefore_cons.mpr ⟨?_, ?_⟩
            · intro bb hbb
              rw [fixSpaceBeforeF_head hb fuel rest2] at hbb
              injection hbb with hbb
              right
              rw [← hbb]
              exact hbp
            · rw [← hre]
              exact ih hrest (hre ▸ hadj2)
      · rw [if_neg hw]
        refine noWsBefore_cons.mpr ⟨?_, ih hrest (noAdjWs_tail hadj)⟩
        intro bb _
        left
        exact bool_not_true hw

theorem fixSpaceBeforeF_pres_nwb {p : Char} (q : Char)
    (hp : isJsWs p = false) :
    ∀ (fuel : Nat) {l : List Char}, noAdjWs l → noWsBefore q l →
    noWsBefore q (fixSpaceBeforeF p fuel l) := by
  intro fuel
  induction fuel with
  | zero => intro l _ hq; exact hq
  | succ fuel ih =>
    intro l hadj hq
    cases l with
    | nil => exact trivial
    | cons a rest =>
      unfold fixSpaceBeforeF
      by_cases hw : isJsWs a
      · rw [if_pos hw]
        cases hdw : rest.dropWhile isJsWs with
        | nil =>
          dsimp only
          cases hre : rest with
          | nil => exact trivial
          | cons d t =>
            exfalso
            have hd : isJsWs d = false := by
              rcases (noAdjWs_cons.mp hadj).1 d (by rw [hre]; rfl) with h | h
              · rw [h] at hw
                cases hw
              · exact h
            rw [hre, List.dropWhile_cons,
              if_neg (bool_false_not_true hd)] at hdw
            cases hdw
        | cons b rest2 =>
          dsimp only
          have hb : isJsWs b = false := head_of_dropWhile_cons hdw
          have hre : rest = b :: rest2 := adj_rest_eq hw hadj hdw
          have hadj2 : noAdjWs (b :: rest2) := by
            rw [← hre]
            exact noAdjWs_tail hadj
          have hq2 : noWsBefore q (b :: rest2) := by
            rw [← hre]
            exact noWsBefore_tail hq
          by_cases hbp : b = p
          · rw [if_pos hbp]
            refine noWsBefore_cons.mpr ⟨?_, ?_⟩
            · intro bb _
              left
              exact hp
            · exact ih (noAdjWs_tail hadj2) (noWsBefore_tail hq2)
          · rw [if_neg hbp]
            rw [adj_takeWhile_nil hw hadj hdw]
            simp only [List.cons_append, List.nil_append]
            refine noWsBefore_cons.mpr ⟨?_, ?_⟩
            · intro bb hbb
              rw [fixSpaceBeforeF_head hb fuel rest2] at hbb
              injection hbb with hbb
              have hpair := (noWsBefore_cons.mp hq).1 b (by rw [hre]; rfl)
              rw [← hbb]
              exact hpair
            · rw [← hre]
              exact ih (hre ▸ hadj2) (hre ▸ hq2)
      · rw [if_neg hw]
        refine noWsBefore_cons.mpr
          ⟨?_, ih (noAdjWs_tail hadj) (noWsBefore_tail hq)⟩
        intro bb _
        left
        exact bool_not_true hw

theorem fixSpaceBeforeF_nop {p : Char} :
    ∀ (fuel : Nat) {l : List Char}, noAdjWs l → noWsBefore p l →
    fixSpaceBeforeF p fuel l = l := by
  intro fuel
  induction fuel with
  | zero => intro l _ _; rfl
  | succ fuel ih =>
    intro l hadj hq
    cases l with
    | nil => rfl
    | cons a rest =>
      unfold fixSpaceBeforeF
      by_cases hw : isJsWs a
      · rw [if_pos hw]
        cases hdw : rest.dropWhile isJsWs with
        | nil =>
          dsimp only
          rw [takeWhile_eq_self_of_dropWhile_nil hdw]
        | cons b rest2 =>
          dsimp only
          have hre : rest = b :: rest2 := adj_rest_eq hw hadj hdw
          have hbp : ¬b = p := by
            rcases (noWsBefore_cons.mp hq).1 b (by rw [hre]; rfl) with h | h
            · rw [h] at hw
              cases hw
            · exact h
          rw [if_neg hbp]
          rw [adj_takeWhile_nil hw hadj hdw]
          simp only [List.cons_append, List.nil_append]
          rw [← hre]
          exact congrArg _
            (ih (noAdjWs_tail hadj) (noWsBefore_tail hq))
      · rw [if_neg hw]
        exact congrArg _
          (ih (noAdjWs_tail hadj) (noWsBefore_tail hq))

/-! ### Step 10: `trim` -/

theorem jsDropTrailing_mem : ∀ {l : List Char} {c : Char},
    c ∈ jsDropTrailing l → c ∈ l := by
  intro l
  induction l with
  | nil => intro c h; exact h
  | cons a rest ih =>
    intro c h
    unfold jsDropTrailing at h
    dsimp only at h
    split at h
    · simp at h
    · rcases List.mem_cons.mp h with rfl | h2
      · exact List.mem_cons_self _ _
      · exact List.mem_cons_of_mem _ (ih h2)

theorem jsDropTrailing_head : ∀ {l : List Char} {y : Char} {t : List Char},
    jsDropTrailing l = y :: t → l.head? = some y := by
  intro l
  cases l with
  | nil => intro y t h; cases h
  | cons a rest =>
    intro y t h
    unfold jsDropTrailing at h
    dsimp only at h
    split at h
    · cases h
    · injection h with h1 _
      rw [h1]
      rfl

theorem jsDropTrailing_headOk {l : List Char} (h : headOk l) :
    headOk (jsDropTrailing l) := by
  cases l with
  | nil => exact h
  | cons a rest =>
    unfold jsDropTrailing
    dsimp only
    split
    · exact trivial
    · exact h

theorem jsDropTrailing_lastOk : ∀ (l : List Char),
    lastOk (jsDropTrailing l) := by
  intro l
  induction l with
  | nil => exact trivial
  | cons a rest ih =>
    unfold jsDropTrailing
    dsimp only
    split
    next => exact trivial
    next hcond =>
      cases hr : jsDropTrailing rest with
      | nil =>
        rw [hr] at hcond
        simp at hcond
        exact hcond
      | cons y t =>
        rw [lastOk_cons (List.cons_ne_nil y t)]
        rw [← hr]
        exact ih

theorem jsDropTrailing_noAdjWs : ∀ {l : List Char}, noAdjWs l →
    noAdjWs (jsDropTrailing l) := by
  intro l
  induction l with
  | nil => intro _; exact trivial
  | cons a rest ih =>
    intro hadj
    unfold jsDropTrailing
    dsimp only
    split
    next => exact trivial
    next =>
      cases hr : jsDropTrailing rest with
      | nil => exact trivial
      | cons y t =>
        refine noAdjWs_cons.mpr ⟨?_, ?_⟩
        · intro b hb
          injection hb with hb
          have hpair := (noAdjWs_cons.mp hadj).1 y (jsDropTrailing_head hr)
          rw [← hb]
          exact hpair
        · have h2 := ih (noAdjWs_tail hadj)
          rw [hr] at h2
          exact h2

theorem jsDropTrailing_nwb (q : Char) : ∀ {l : List Char}, noWsBefore q l →
    noWsBefore q (jsDropTrailing l) := by
  intro l
  induction l with
  | nil => intro _; exact trivial
  | cons a rest ih =>
    intro hq
    unfold jsDropTrailing
    dsimp only
    split
    next => exact trivial
    next =>
      cases hr : jsDropTrailing rest with
      | nil => exact trivial
      | cons y t =>
        refine noWsBefore_cons.mpr ⟨?_, ?_⟩
        · intro b hb
          injection hb with hb
          have hpair := (noWsBefore_cons.mp hq).1 y (jsDropTrailing_head hr)
          rw [← hb]
          exact hpair
        · have h2 := ih (noWsBefore_tail hq)
          rw [hr] at h2
          exact h2

theorem jsDropTrailing_filterParens : ∀ (l : List Char),
    filterParens (jsDropTrailing l) = filterParens l := by
  intro l
  induction l with
  | nil => rfl
  | cons a rest ih =>
    unfold jsDropTrailing
    dsimp only
    split
    next hcond =>
      rw [Bool.and_eq_true] at hcond
      have h1 : jsDropTrailing rest = [] := of_decide_eq_true hcond.1
      rw [filterParens_cons_not a (ws_not_paren hcond.2)]
      rw [← ih, h1]
    next =>
      exact filterParens_cons_congr a ih

theorem jsDropTrailing_nop : ∀ {l : List Char}, lastOk l →
    jsDropTrailing l = l := by
  intro l
  induction l with
  | nil => intro _; rfl
  | cons a rest ih =>
    intro h
    cases rest with
    | nil =>
      have hws : isJsWs a = false := h
      unfold jsDropTrailing
      dsimp only
      split
      next hcond =>
        exfalso
        rw [Bool.and_eq_true] at hcond
        have h2 := hcond.2
        rw [hws] at h2
        exact Bool.noConfusion h2
      next => rfl
    | cons y t =>
      have hlr : lastOk (y :: t) := (lastOk_cons (List.cons_ne_nil y t)).mp h
      have hjr := ih hlr
      unfold jsDropTrailing
      dsimp only
      split
      next hcond =>
        exfalso
        rw [Bool.and_eq_true] at hcond
        have h1 : jsDropTrailing (y :: t) = [] := of_decide_eq_true hcond.1
        rw [hjr] at h1
        cases h1
      next =>
        rw [hjr]

theorem dropWhileWs_headOk (l : List Char) : headOk (l.dropWhile isJsWs) := by
  induction l with
  | nil => exact trivial
  | cons a rest ih =>
    rw [List.dropWhile_cons]
    by_cases hw : isJsWs a
    · rw [if_pos hw]
      exact ih
    · rw [if_neg hw]
      exact bool_not_true hw

theorem dropWhile_noAdjWs {q : Char → Bool} : ∀ {l : List Char},
    noAdjWs l → noAdjWs (l.dropWhile q) := by
  intro l
  induction l with
  | nil => intro _; exact trivial
  | cons a rest ih =>
    intro h
    rw [List.dropWhile_cons]
    by_cases hq : q a
    · rw [if_pos hq]
      exact ih (noAdjWs_tail h)
    · rw [if_neg hq]
      exact h

theorem dropWhile_nwb {q : Char → Bool} (p : Char) : ∀ {l : List Char},
    noWsBefore p l → noWsBefore p (l.dropWhile q) := by
  intro l
  induction l with
  | nil => intro _; exact trivial
  | cons a rest ih =>
    intro h
    rw [List.dropWhile_cons]
    by_cases hq : q a
    · rw [if_pos hq]
      exact ih (noWsBefore_tail h)
    · rw [if_neg hq]
      exact h

theorem dropWhileWs_nop {l : List Char} (h : headOk l) :
    l.dropWhile isJsWs = l := by
  cases l with
  | nil => rfl
  | cons a rest =>
    have h2 : isJsWs a = false := h
    rw [List.dropWhile_cons, if_neg (bool_false_not_true h2)]

theorem jsTrimL_headOk (l : List Char) : headOk (jsTrimL l) :=
  jsDropTrailing_headOk (dropWhileWs_headOk l)

theorem jsTrimL_lastOk (l : List Char) : lastOk (jsTrimL l) :=
  jsDropTrailing_lastOk _

theorem jsTrimL_noAdjWs {l : List Char} (h : noAdjWs l) :
    noAdjWs (jsTrimL l) :=
  jsDropTrailing_noAdjWs (dropWhile_noAdjWs h)

theorem jsTrimL_nwb (q : Char) {l : List Char} (h : noWsBefore q l) :
    noWsBefore q (jsTrimL l) :=
  jsDropTrailing_nwb q (dropWhile_nwb q h)

theorem jsTrimL_filterParens (l : List Char) :
    filterParens (jsTrimL l) = filterParens l := by
  unfold jsTrimL
  rw [jsDropTrailing_filterParens, filterParens_dropWhile wsNotParen]

theorem jsTrimL_mem {l : List Char} {c : Char} (h : c ∈ jsTrimL l) :
    c ∈ l :=
  mem_of_mem_dropWhile (jsDropTrailing_mem h)

theorem jsTrimL_nop {l : List Char} (h1 : headOk l) (h2 : lastOk l) :
    jsTrimL l = l := by
  unfold jsTrimL
  rw [dropWhileWs_nop h1]
  exact jsDropTrailing_nop h2

/-! ### Remaining `filterParens` preservation lemmas -/

theorem collapseWs_filterParens : ∀ (l : List Char),
    filterParens (collapseWs l) = filterParens l := by
  intro l
  induction l with
  | nil => rfl
  | cons a rest ih =>
    unfold collapseWs
    by_cases hw : isJsWs a
    · rw [if_pos hw]
      cases rest with
      | nil =>
        dsimp only
        rw [filterParens_cons_not ' ' (by decide),
          filterParens_cons_not a (ws_not_paren hw)]
      | cons d rest2 =>
        dsimp only
        by_cases hd : isJsWs d
        · rw [if_pos hd, ih, filterParens_cons_not a (ws_not_paren hw)]
        · rw [if_neg hd, filterParens_cons_not ' ' (by decide), ih,
            filterParens_cons_not a (ws_not_paren hw)]
    · rw [if_neg hw]
      exact filterParens_cons_congr a ih

theorem fixSpaceBeforeF_filterParens {p : Char} (hpp : isParen p = false) :
    ∀ (fuel : Nat) {l : List Char}, l.length ≤ fuel →
    filterParens (fixSpaceBeforeF p fuel l) = filterParens l := by
  intro fuel
  induction fuel with
  | zero => intro l _; rfl
  | succ fuel ih =>
    intro l hl
    cases l with
    | nil => rfl
    | cons a rest =>
      have hrest : rest.length ≤ fuel := by
        simp only [List.length_cons] at hl
        omega
      unfold fixSpaceBeforeF
      by_cases hw : isJsWs a
      · rw [if_pos hw]
        cases hdw : rest.dropWhile isJsWs with
        | nil =>
          dsimp only
          rw [takeWhile_eq_self_of_dropWhile_nil hdw]
        | cons b rest2 =>
          dsimp only
          have hX3 : (b :: rest2).length ≤ fuel := by
            have h2 := dropWhile_length_le isJsWs rest
            rw [hdw] at h2
            omega
          have hR : filterParens (a :: rest) = filterParens (b :: rest2) := by
            rw [filterParens_cons_not a (ws_not_paren hw)]
            conv_lhs => rw [← List.takeWhile_append_dropWhile isJsWs rest]
            rw [filterParens_append, filterParens_takeWhile wsNotParen rest,
              List.nil_append, hdw]
          by_cases hbp : b = p
          · rw [if_pos hbp]
            have hX2 : rest2.length ≤ fuel := by
              simp only [List.length_cons] at hX3
              omega
            rw [filterParens_cons_not p hpp, ih hX2, hR]
            rw [filterParens_cons_not b (by rw [hbp]; exact hpp)]
          · rw [if_neg hbp]
            rw [filterParens_append, ih hX3, hR]
            rw [filterParens_cons_not a (ws_not_paren hw)
              (rest.takeWhile isJsWs)]
            rw [filterParens_takeWhile wsNotParen rest, List.nil_append]
      · rw [if_neg hw]
        exact filterParens_cons_congr a (ih hrest)

/-! ### Stage wrappers and invariant transfer -/

theorem npp_of_filter_eq {x y : List Char}
    (hf : filterParens x = filterParens y) (h : noParenPairL y) :
    noParenPairL x := by
  rw [npp_filter, hf, ← npp_filter]
  exact h

theorem allWsSpace_transfer_space {x y : List Char}
    (hmem : ∀ {c : Char}, c ∈ x → c ∈ y ∨ c = ' ')
    (h : allWsSpace y) : allWsSpace x := by
  intro c hc hcw
  rcases hmem hc with h2 | h2
  · exact h c h2 hcw
  · exact h2

theorem allWsSpace_transfer_nonws {x y : List Char} {p : Char}
    (hp : isJsWs p = false)
    (hmem : ∀ {c : Char}, c ∈ x → c ∈ y ∨ c = p)
    (h : allWsSpace y) : allWsSpace x := by
  intro c hc hcw
  rcases hmem hc with h2 | h2
  · exact h c h2 hcw
  · subst h2
    rw [hcw] at hp
    cases hp

theorem noBullets_transfer {x y : List Char} {p : Char}
    (hp : isBullet p = false)
    (hmem : ∀ {c : Char}, c ∈ x → c ∈ y ∨ c = p)
    (h : noBullets y) : noBullets x := by
  intro c hc
  rcases hmem hc with h2 | h2
  · exact h c h2
  · subst h2
    exact hp

theorem removeLink1_nop {l : List Char} (h : noParenPairL l) :
    removeLink1 l = l :=
  removeLink1F_nop _ h

theorem removeLink2_nop {l : List Char} (h : noParenPairL l) :
    removeLink2 l = l :=
  removeLink2F_nop _ h

theorem removeParens_nop {l : List Char} (h : noParenPairL l) :
    removeParens l = l :=
  removeParensF_nop _ h

theorem removeParens_npp (l : List Char) : noParenPairL (removeParens l) :=
  removeParensF_npp _ le_rfl

theorem collapseNL_nop {l : List Char} (h : '\n' ∉ l) : collapseNL l = l :=
  collapseNLF_nop _ h

theorem collapseNL_filterParens (l : List Char) :
    filterParens (collapseNL l) = filterParens l :=
  collapseNLF_filterParens _ le_rfl

theorem removeBullets_nop {l : List Char} (h : noBullets l) :
    removeBullets l = l :=
  removeBulletsF_nop _ h

theorem removeBullets_filterParens (l : List Char) :
    filterParens (removeBullets l) = filterParens l :=
  removeBulletsF_filterParens _ le_rfl

theorem removeBullets_noBullets (l : List Char) :
    noBullets (removeBullets l) :=
  removeBulletsF_noBullets _ le_rfl

theorem removeBullets_mem {l : List Char} {c : Char}
    (h : c ∈ removeBullets l) : c ∈ l ∨ c = ' ' :=
  removeBulletsF_mem _ h

theorem fixSpaceBefore_mem {p : Char} {l : List Char} {c : Char}
    (h : c ∈ fixSpaceBefore p l) : c ∈ l ∨ c = p :=
  fixSpaceBeforeF_mem _ h

theorem fixSpaceBefore_filterParens {p : Char} (hpp : isParen p = false)
    (l : List Char) : filterParens (fixSpaceBefore p l) = filterParens l :=
  fixSpaceBeforeF_filterParens hpp _ le_rfl

theorem fixSpaceBefore_noAdjWs {p : Char} (hp : isJsWs p = false)
    {l : List Char} (h : noAdjWs l) : noAdjWs (fixSpaceBefore p l) :=
  fixSpaceBeforeF_noAdjWs hp _ le_rfl h

theorem fixSpaceBefore_est {p : Char} (hp : isJsWs p = false)
    {l : List Char} (h : noAdjWs l) : noWsBefore p (fixSpaceBefore p l) :=
  fixSpaceBeforeF_est hp _ le_rfl h

theorem fixSpaceBefore_pres_nwb {p : Char} (q : Char) (hp : isJsWs p = false)
    {l : List Char} (hadj : noAdjWs l) (hq : noWsBefore q l) :
    noWsBefore q (fixSpaceBefore p l) :=
  fixSpaceBeforeF_pres_nwb q hp _ hadj hq

theorem fixSpaceBefore_nop {p : Char} {l : List Char} (hadj : noAdjWs l)
    (hq : noWsBefore p l) : fixSpaceBefore p l = l :=
  fixSpaceBeforeF_nop _ hadj hq

/-! ### The cleanup chain yields normal-form text and is the identity on
normal-form text -/

theorem tail_normal (x : List Char) (hx : noParenPairL x) :
    cleanNormal (jsTrimL (fixSpaceBefore ',' (fixSpaceBefore '.'
      (collapseWs (removeBullets x))))) := by
  have h6 : noParenPairL (removeBullets x) :=
    npp_of_filter_eq (removeBullets_filterParens x) hx
  have h6b : noBullets (removeBullets x) := removeBullets_noBullets x
  revert h6 h6b
  generalize removeBullets x = y
  intro h6 h6b
  have h7 : noParenPairL (collapseWs y) :=
    npp_of_filter_eq (collapseWs_filterParens y) h6
  have h7b : noBullets (collapseWs y) :=
    noBullets_transfer (by decide) (fun hc => collapseWs_mem hc) h6b
  have h7w : allWsSpace (collapseWs y) := collapseWs_allWsSpace y
  have h7a : noAdjWs (collapseWs y) := collapseWs_noAdjWs y
  revert h7 h7b h7w h7a
  generalize collapseWs y = z
  intro h7 h7b h7w h7a
  have h8 : noParenPairL (fixSpaceBefore '.' z) :=
    npp_of_filter_eq (fixSpaceBefore_filterParens (by decide) z) h7
  have h8b : noBullets (fixSpaceBefore '.' z) :=
    noBullets_transfer (by decide) (fun hc => fixSpaceBefore_mem hc) h7b
  have h8w : allWsSpace (fixSpaceBefore '.' z) :=
    allWsSpace_transfer_nonws (by decide) (fun hc => fixSpaceBefore_mem hc)
      h7w
  have h8a : noAdjWs (fixSpaceBefore '.' z) :=
    fixSpaceBefore_noAdjWs (by decide) h7a
  have h8d : noWsBefore '.' (fixSpaceBefore '.' z) :=
    fixSpaceBefore_est (by decide) h7a
  revert h8 h8b h8w h8a h8d
  generalize fixSpaceBefore '.' z = w
  intro h8 h8b h8w h8a h8d
  have h9 : noParenPairL (fixSpaceBefore ',' w) :=
    npp_of_filter_eq (fixSpaceBefore_filterParens (by decide) w) h8
  have h9b : noBullets (fixSpaceBefore ',' w) :=
    noBullets_transfer (by decide) (fun hc => fixSpaceBefore_mem hc) h8b
  have h9w : allWsSpace (fixSpaceBefore ',' w) :=
    allWsSpace_transfer_nonws (by decide) (fun hc => fixSpaceBefore_mem hc)
      h8w
  have h9a : noAdjWs (fixSpaceBefore ',' w) :=
    fixSpaceBefore_noAdjWs (by decide) h8a
  have h9d : noWsBefore '.' (fixSpaceBefore ',' w) :=
    fixSpaceBefore_pres_nwb '.' (by decide) h8a h8d
  have h9c : noWsBefore ',' (fixSpaceBefore ',' w) :=
    fixSpaceBefore_est (by decide) h8a
  revert h9 h9b h9w h9a h9d h9c
  generalize fixSpaceBefore ',' w = v
  intro h9 h9b h9w h9a h9d h9c
  refine ⟨?_, ?_, ?_, ?_, ?_, ?_, ?_, ?_⟩
  · exact npp_of_filter_eq (jsTrimL_filterParens v) h9
  · exact fun c hc => h9b c (jsTrimL_mem hc)
  · exact fun c hc hw => h9w c (jsTrimL_mem hc) hw
  · exact jsTrimL_noAdjWs h9a
  · exact jsTrimL_nwb _ h9d
  · exact jsTrimL_nwb _ h9c
  · exact jsTrimL_headOk v
  · exact jsTrimL_lastOk v

theorem cleanL_normal (l : List Char) : cleanNormal (cleanL l) := by
  have hx : noParenPairL (mapNewlines (collapseNL (removeParens
      (removeLink2 (removeLink1 l))))) :=
    npp_of_filter_eq (mapNewlines_filterParens _)
      (npp_of_filter_eq (collapseNL_filterParens _) (removeParens_npp _))
  exact tail_normal _ hx

theorem cleanL_nop {l : List Char} (h : cleanNormal l) : cleanL l = l := by
  obtain ⟨hnpp, hnb, hws, hadj, hd, hcm, hho, hlo⟩ := h
  have hnl : '\n' ∉ l := by
    intro hm
    have h2 := hws '\n' hm (by decide)
    exact absurd h2 (by decide)
  unfold cleanL
  rw [removeLink1_nop hnpp, removeLink2_nop hnpp, removeParens_nop hnpp,
    collapseNL_nop hnl, mapNewlines_nop hnl, removeBullets_nop hnb,
    collapseWs_nop hws hadj, fixSpaceBefore_nop hadj hd,
    fixSpaceBefore_nop hadj hcm]
  exact jsTrimL_nop hho hlo

theorem cleanL_idem (l : List Char) : cleanL (cleanL l) = cleanL l :=
  cleanL_nop (cleanL_normal l)

/-- Claim C6: the normalization chain applied to the secondary output
(markdown-link stripping, parenthetical removal, newline and bullet
collapsing, whitespace normalization, space-before-punctuation fixes,
trim) is idempotent. -/
theorem spec_c6 : ∀ s : String,
    cleanResponse (cleanResponse s) = cleanResponse s := by
  intro s
  unfold cleanResponse
  exact congrArg String.mk (cleanL_idem s.data)

end StoreInfo
